import Mathlib

/-!
Verification of the token-resolution and sequence-continuation core of
`continue_folder.py` (class `ContinueFolder`).

The embedding models, from the source:
* the token table (`generate_tokens`),
* pattern-to-regex compilation by repeated `re.sub` (`generate_pattern_regex`),
* scanning of a directory listing with `re.match` (`capture_tokens`,
  `find_folders`),
* version resolution (`update_version_token`, including the nested
  `find_version_padding`), and
* final token substitution (`resolve_tokens`).

Python's `re` is embedded for exactly the regex fragment this script can
generate and match: literal characters, character sets such as `[0-9]`,
fixed repetitions such as `[0-9]\x7b2\x7d`, `*` on a single character or set,
`.`, non-capturing groups `(?:...)` and capturing groups `(?P<name>...)` or
`(...)`.  Constructs outside this fragment (alternation, escapes, `+`, `?`,
ranged repetition) are reported as parse errors; none of them occurs in a
regex this script builds from its token table.  Matching follows Python's
anchored `re.match` semantics: backtracking with greedy stars, trying
longer star consumptions first, the overall match being the first success.
-/

namespace ContinueFolder

/-- Count of leading occurrences of character `c` at the front of a list. -/
def countLeading (c : Char) : List Char → Nat
  | [] => 0
  | d :: rest => if d = c then countLeading c rest + 1 else 0

/-- Decimal digits to a natural number (the value `int()` computes on a
captured digit string). -/
def digitsToNat (s : List Char) : Nat :=
  s.foldl (fun a c => a * 10 + (c.toNat - 48)) 0

/-- Digit test by code point, `'0'` through `'9'`. -/
def isDigitCh (c : Char) : Bool :=
  decide (48 ≤ c.toNat) && decide (c.toNat ≤ 57)

/-- Python `int()` applied to a captured substring: defined on non-empty digit
strings.  (On anything else `int()` would raise; no regex this script builds
can capture a non-digit string, see `find_folders`.) -/
def pyInt (s : List Char) : Option Nat :=
  if s ≠ [] ∧ s.all isDigitCh then some (digitsToNat s) else none

/-- Does `pat` occur as a contiguous run somewhere in `s`?  Used to reason
about `re.sub` with a literal pattern. -/
def occursInB (pat : List Char) : List Char → Bool
  | [] => pat.isEmpty
  | c :: rest => pat.isPrefixOf (c :: rest) || occursInB pat rest

/-- One step bound by fuel of `re.sub` with a literal pattern: scan left to
right, replacing each non-overlapping occurrence and continuing after the
replaced text (the replacement itself is not rescanned).  The fuel is the
length of the subject, enough since every step consumes at least one
character. -/
def replaceFuel (pat repl : List Char) : Nat → List Char → List Char
  | 0, s => s
  | _ + 1, [] => []
  | n + 1, c :: rest =>
    if pat.isPrefixOf (c :: rest) then
      repl ++ replaceFuel pat repl n (List.drop (pat.length - 1) rest)
    else
      c :: replaceFuel pat repl n rest

/-- `re.sub` with a literal pattern (each of the table's primary tokens, such
as `"\x7bYYYY\x7d"`, is literal in Python's `re`: a brace not forming a valid
quantifier matches itself). -/
def replaceAll (pat repl s : List Char) : List Char :=
  if pat = [] then s else replaceFuel pat repl s.length s

/-- The opening text of the version token. -/
def vOpen : List Char := "\x7bversion".data

/-- Attempt, at the current position, the Version token's extended regex
`"\x7bversion#*\x7d"`: the literal run `"\x7bversion"`, then the maximal run of `'#'`
(backtracking cannot accept a shorter run, because the character after a
shorter run is `'#'`, not `'\x7d'`), then `'\x7d'`.  Returns the hash count on
success. -/
def vTokAt (s : List Char) : Option Nat :=
  if vOpen.isPrefixOf s then
    if (List.drop (countLeading '#' (List.drop 8 s)) (List.drop 8 s)).head? =
        some '\x7d'
    then some (countLeading '#' (List.drop 8 s)) else none
  else none

/-- Fuel-bound scan of `re.sub` with the pattern `"\x7bversion#*\x7d"`:
occurrences are replaced left to right, the scan continuing after each
match. -/
def versionExtFuel (repl : List Char) : Nat → List Char → List Char
  | 0, s => s
  | _ + 1, [] => []
  | n + 1, c :: rest =>
    match vTokAt (c :: rest) with
    | some k => repl ++ versionExtFuel repl n (List.drop (8 + k) rest)
    | none => c :: versionExtFuel repl n rest

/-- `re.sub` with the Version token's extended pattern. -/
def versionExtSub (repl s : List Char) : List Char :=
  versionExtFuel repl s.length s

/-- Abstract syntax for the regex fragment generated and matched by the
script.  Stars and fixed repetitions apply only to single character sets,
which is all the token fragments use. -/
inductive Reg : Type where
  | eps : Reg
  | cls : List (Char × Char) → Reg
  | starCls : List (Char × Char) → Reg
  | cat : Reg → Reg → Reg
  | group : Reg → Reg
deriving DecidableEq

/-- Character-set membership: inside any of the listed inclusive code-point
ranges. -/
def inCls (rs : List (Char × Char)) (c : Char) : Bool :=
  rs.any (fun r => decide (r.1.toNat ≤ c.toNat) && decide (c.toNat ≤ r.2.toNat))

/-- All ways a greedy star over a character set can leave the subject, longest
consumption first — Python's backtracking order. -/
def starRests (rs : List (Char × Char)) : List Char → List (List Char)
  | [] => [[]]
  | c :: rest =>
    if inCls rs c then starRests rs rest ++ [c :: rest] else [c :: rest]

/-- All ways `r` can match a front segment of `s`, in Python's backtracking
priority order.  Each result is the remaining subject paired with the list of
group captures in group order (no regex in scope nests capturing groups). -/
def mall : Reg → List Char → List (List Char × List (List Char))
  | .eps, s => [(s, [])]
  | .cls _, [] => []
  | .cls rs, c :: rest => if inCls rs c then [(rest, [])] else []
  | .starCls rs, s => (starRests rs s).map (fun r => (r, []))
  | .cat a b, s =>
    (mall a s).flatMap (fun p => (mall b p.1).map (fun q => (q.1, p.2 ++ q.2)))
  | .group a, s =>
    (mall a s).map (fun p => (p.1, p.2 ++ [List.take (s.length - p.1.length) s]))

/-- Number of capturing groups of a regex, the length of `groups()` on any of
its match objects. -/
def numGroups : Reg → Nat
  | .eps => 0
  | .cls _ => 0
  | .starCls _ => 0
  | .cat a b => numGroups a + numGroups b
  | .group a => numGroups a + 1

/-- A match object: `group(0)` and the capture list. -/
structure MatchRes where
  matched : List Char
  caps : List (List Char)
deriving DecidableEq

/-- Anchored `re.match`: the highest-priority way for `r` to match a front
segment of `s`; trailing unmatched characters are permitted. -/
def reMatch (r : Reg) (s : List Char) : Option MatchRes :=
  match (mall r s).head? with
  | none => none
  | some p => some ⟨List.take (s.length - p.1.length) s, p.2⟩

/-- The character set of `.`: every character except a newline. -/
def dotRanges : List (Char × Char) :=
  [(Char.ofNat 0, Char.ofNat 9), (Char.ofNat 11, Char.ofNat 1114111)]

/-- Characters Python accepts in a group name. -/
def isNameCh (c : Char) : Bool := c.isAlphanum || c = '_'

/-- Parse the body of a character set, after the opening `'['`, up to the
closing `']'`.  Ranges `a-b` and single characters are supported; a `'-'`
immediately before the closing bracket is literal, as in Python.  Out-of-scope
set syntax (escapes, negation) is reported as an error. -/
def parseClsBody : Nat → List Char → Except String (List (Char × Char) × List Char)
  | 0, _ => .error "internal fuel exhausted"
  | _ + 1, [] => .error "unterminated character set"
  | n + 1, c :: rest =>
    if c = ']' then .ok ([], rest)
    else if c = '\\' || c = '^' then .error "unsupported character set syntax"
    else
      match rest with
      | '-' :: d :: rest2 =>
        if d = ']' then do
          let (rs, r) ← parseClsBody n rest
          .ok ((c, c) :: rs, r)
        else if c.toNat ≤ d.toNat then do
          let (rs, r) ← parseClsBody n rest2
          .ok ((c, d) :: rs, r)
        else .error "bad character range"
      | _ => do
        let (rs, r) ← parseClsBody n rest
        .ok ((c, c) :: rs, r)

/-- Parse a group name, up to the closing `'>'`. -/
def parseGroupName (s : List Char) : Except String (String × List Char) :=
  let nm := s.takeWhile isNameCh
  let rest := s.drop nm.length
  if nm = [] then .error "missing group name"
  else
    match rest with
    | '>' :: rest2 => .ok (String.mk nm, rest2)
    | _ => .error "bad character in group name"

/-- Fold a reversed atom list into a regex (last atom at the head). -/
def foldAtoms (atoms : List Reg) : Reg :=
  atoms.foldl (fun acc a => Reg.cat a acc) Reg.eps

/-- Apply `'*'` to the most recent atom.  Python errors (`nothing to repeat`,
`multiple repeat`) are reported; a star on a group is outside the supported
fragment. -/
def applyStar : List Reg → Except String (List Reg)
  | .cls rs :: rest => .ok (.starCls rs :: rest)
  | .starCls _ :: _ => .error "multiple repeat"
  | _ :: _ => .error "unsupported repeat target"
  | [] => .error "nothing to repeat"

/-- Apply a fixed repetition `\x7bk\x7d` to the most recent atom. -/
def applyRepeat (atoms : List Reg) (k : Nat) : Except String (List Reg) :=
  match atoms with
  | .cls rs :: rest => .ok (List.replicate k (Reg.cls rs) ++ rest)
  | .starCls _ :: _ => .error "multiple repeat"
  | _ :: _ => .error "unsupported repeat target"
  | [] => .error "nothing to repeat"

/-- Recursive-descent parse of a regex sequence.  `atoms` holds the atoms
seen so far in reverse; `names` the capturing group names seen so far, used
to reproduce Python's `redefinition of group name` error; `inGroup` tells
whether a `')'` closes a subpattern or is unbalanced.  A brace that does not
begin a valid fixed repetition is a literal character, as in Python.  The
fuel is one more than the subject length; every recursive call consumes at
least one character first, so the fuel case is unreachable. -/
def parseSeq : Nat → List Char → List String → List Reg → Bool →
    Except String (Reg × List Char × List String)
  | 0, _, _, _, _ => .error "internal fuel exhausted"
  | _ + 1, [], names, atoms, inGroup =>
    if inGroup then .error "missing ), unterminated subpattern"
    else .ok (foldAtoms atoms, [], names)
  | fuel + 1, c :: rest, names, atoms, inGroup =>
    if c = ')' then
      if inGroup then .ok (foldAtoms atoms, rest, names)
      else .error "unbalanced parenthesis"
    else if c = '*' then do
      let atoms2 ← applyStar atoms
      parseSeq fuel rest names atoms2 inGroup
    else if c = '\x7b' then
      let ds := rest.takeWhile isDigitCh
      match ds, rest.drop ds.length with
      | _ :: _, '\x7d' :: rest2 => do
        let atoms2 ← applyRepeat atoms (digitsToNat ds)
        parseSeq fuel rest2 names atoms2 inGroup
      | _ :: _, ',' :: _ => .error "unsupported ranged repeat"
      | _, _ => parseSeq fuel rest names (.cls [(c, c)] :: atoms) inGroup
    else if c = '[' then do
      let (rs, rest2) ← parseClsBody rest.length rest
      parseSeq fuel rest2 names (.cls rs :: atoms) inGroup
    else if c = '(' then
      match rest with
      | '?' :: ':' :: rest2 => do
        let (inner, rest3, names2) ← parseSeq fuel rest2 names [] true
        parseSeq fuel rest3 names2 (inner :: atoms) inGroup
      | '?' :: 'P' :: '<' :: rest2 => do
        let (nm, rest3) ← parseGroupName rest2
        if nm ∈ names then .error "redefinition of group name"
        else do
          let (inner, rest4, names2) ← parseSeq fuel rest3 (nm :: names) [] true
          parseSeq fuel rest4 names2 (.group inner :: atoms) inGroup
      | '?' :: _ => .error "unsupported group extension"
      | _ => do
        let (inner, rest3, names2) ← parseSeq fuel rest names [] true
        parseSeq fuel rest3 names2 (.group inner :: atoms) inGroup
    else if c = '.' then
      parseSeq fuel rest names (.cls dotRanges :: atoms) inGroup
    else if c = '\\' || c = '|' || c = '+' || c = '?' || c = '^' || c = '$' then
      .error "unsupported regex syntax"
    else
      parseSeq fuel rest names (.cls [(c, c)] :: atoms) inGroup

/-- Compile a regex string, reproducing `re.compile`'s acceptance on the
fragment in scope and an `re.error` outside it or on genuinely invalid input
(such as a duplicated group name). -/
def parseReg (s : String) : Except String Reg :=
  match parseSeq (s.data.length + 1) s.data [] [] false with
  | .ok (r, _, _) => .ok r
  | .error e => .error e

/-- Does a regex string fail to compile? -/
def regexInvalid (s : String) : Bool :=
  match parseReg s with
  | .error _ => true
  | .ok _ => false

/-- `ContinueFolder.capture_tokens(regex, folder)`: `re.match(regex, folder)`
wrapped in `try/except re.error`, so a regex that fails to compile (for
example when the version token was used twice, duplicating the named group)
yields `None` rather than an exception. -/
def capture_tokens (regex folder : String) : Option MatchRes :=
  match parseReg regex with
  | .error _ => none
  | .ok r => reMatch r folder.data

/-- The strftime-derived values the token table reads from `self.now`. -/
structure Clock where
  pLower : String
  pUpper : String
  day : String
  hour12 : String
  hour24 : String
  minute : String
  month : String
  yearYY : String
  yearYYYY : String

/-- One entry of the token table: the list
`[token, token_regex, pattern_regex, value]` of the source, with named
fields. -/
structure Token where
  tok : String
  tok_regex : Option String
  pat_regex : String
  value : String

/-- `ContinueFolder.generate_tokens`, in the source's dictionary insertion
order.  Only the Version token has a `token_regex` (the extended placeholder
syntax); its `pattern_regex` is the sole capturing group. -/
def generate_tokens (now : Clock) : List (String × Token) :=
  [("am/pm", ⟨"\x7bpp\x7d", none, "[a-z]\x7b2\x7d", now.pLower⟩),
   ("AM/PM", ⟨"\x7bPP\x7d", none, "[A-Z]\x7b2\x7d", now.pUpper⟩),
   ("Day", ⟨"\x7bDD\x7d", none, "[0-9]\x7b2\x7d", now.day⟩),
   ("Hour (12hr)", ⟨"\x7bhh\x7d", none, "[0-9]\x7b2\x7d", now.hour12⟩),
   ("Hour (24hr)", ⟨"\x7bHH\x7d", none, "[0-9]\x7b2\x7d", now.hour24⟩),
   ("Minute", ⟨"\x7bmm\x7d", none, "[0-9]\x7b2\x7d", now.minute⟩),
   ("Month", ⟨"\x7bMM\x7d", none, "[0-9]\x7b2\x7d", now.month⟩),
   ("Version", ⟨"\x7bversion\x7d", some "\x7bversion#*\x7d",
                "0*(?P<version>[1-9][0-9]*)", "1"⟩),
   ("Year (##)", ⟨"\x7bYY\x7d", none, "[0-9]\x7b2\x7d", now.yearYY⟩),
   ("Year (####)", ⟨"\x7bYYYY\x7d", none, "[0-9]\x7b4\x7d", now.yearYYYY⟩)]

/-- `re.sub(pat, repl, s)` for the patterns the token table feeds it: the
Version token's extended pattern `"\x7bversion#*\x7d"` is a genuine regex
(matching `"\x7bversion"`, a run of `'#'`, then `'\x7d'`); every other table
pattern is a literal string, since a brace not forming a valid quantifier is
literal in Python's `re`. -/
def pySub (pat repl s : List Char) : List Char :=
  if pat = "\x7bversion#*\x7d".data then versionExtSub repl s
  else replaceAll pat repl s

/-- One token's substitution step of `generate_pattern_regex`: substitute the
token's `pattern_regex` for the token's `token_regex` when available,
otherwise for the plain token. -/
def regStep (t : String × Token) (s : List Char) : List Char :=
  match t.2.tok_regex with
  | some r => pySub r.data t.2.pat_regex.data s
  | none => pySub t.2.tok.data t.2.pat_regex.data s

/-- `ContinueFolder.generate_pattern_regex`: apply every token's
`pattern_regex` substitution, in table order. -/
def generate_pattern_regex (tokens : List (String × Token)) (pattern : String) :
    String :=
  String.mk <| tokens.foldl (fun acc t => regStep t acc) pattern.data

/-- One token's substitution step of `resolve_tokens`: the same search
patterns, but replacing with the token's current value. -/
def valStep (t : String × Token) (s : List Char) : List Char :=
  match t.2.tok_regex with
  | some r => pySub r.data t.2.value.data s
  | none => pySub t.2.tok.data t.2.value.data s

/-- `ContinueFolder.resolve_tokens`: apply every token's value substitution,
in table order. -/
def resolve_tokens (tokens : List (String × Token)) (pattern : String) :
    String :=
  String.mk <| tokens.foldl (fun acc t => valStep t acc) pattern.data

/-- `ContinueFolder.find_folders` over an explicit directory listing: keep
each entry the compiled regex matches, as the full matched substring paired
with the captured version when the regex has exactly one group
(`len(search.groups()) == 1` in the source; the capture of the version
fragment is always a non-empty digit string, so the `int()` call is modeled
by `pyInt`). -/
def find_folders (regex : String) (entries : List String) :
    List (String × Option Nat) :=
  entries.filterMap fun folder =>
    match capture_tokens regex folder with
    | none => none
    | some m =>
      some (String.mk m.matched,
            if m.caps.length = 1 then pyInt m.caps.headI else none)

/-- The regex of the nested `find_version_padding`: anything (greedy, and a
`'.'` cannot cross a newline), then `"\x7bversion"`, then the captured run of
`'#'`, then `'\x7d'`. -/
def padRegexStr : String := "(?:.*\x7bversion)(?P<padding>#*)\x7d"

/-- `find_version_padding` inside `update_version_token`: the length of
`group(1)` of `re.match` with `padRegexStr` on the raw pattern, `0` when
there is no match. -/
def find_version_padding (pattern : String) : Nat :=
  match capture_tokens padRegexStr pattern with
  | some m => m.caps.headI.length
  | none => 0

/-- The Python sort key `lambda item: item[1]`, on the tuples whose version
slot is present (on any other tuple the key raises `IndexError`, handled in
`update_version`). -/
def keyFolder (f : String × Option Nat) : Nat := f.2.getD 0

/-- Ascending insertion by the sort key; equal keys keep the existing element
first, as Python's stable sort does. -/
def insertFolder (x : String × Option Nat) :
    List (String × Option Nat) → List (String × Option Nat)
  | [] => [x]
  | y :: ys =>
    if keyFolder x < keyFolder y then x :: y :: ys else y :: insertFolder x ys

/-- `self.folders.sort(key=lambda item: item[1])`. -/
def sortFolders (l : List (String × Option Nat)) : List (String × Option Nat) :=
  l.foldl (fun acc x => insertFolder x acc) []

/-- The version computation of `update_version_token`: sort the matches by
the version slot and add one to the last; an `IndexError` — an empty list at
`folders[-1]`, or a tuple without a version slot reached by the sort key —
gives `1`. -/
def update_version (folders : List (String × Option Nat)) : Nat :=
  if folders.all (fun f => f.2.isSome) then
    match (sortFolders folders).getLast? with
    | some f => keyFolder f + 1
    | none => 1
  else 1

/-- Python `str.zfill` on a digit string: left-pad with `'0'` to the given
width, never truncating. -/
def zfill (s : String) (width : Nat) : String :=
  String.mk (List.replicate (width - s.length) '0' ++ s.data)

/-- `str(version).zfill(self.version_padding)`. -/
def renderVersion (v : Nat) (padding : Nat) : String :=
  zfill (toString v) padding

/-- `self.tokens['Version'][3] = ...`: store the rendered next version in the
table. -/
def setVersion (tokens : List (String × Token)) (v : String) :
    List (String × Token) :=
  tokens.map fun t =>
    if t.1 = "Version" then (t.1, { t.2 with value := v }) else t

/-- One full resolution pass, the body of the source's `update_folder`
callback: compile the pattern, scan the listing, update the Version token,
substitute values.  Always produces a folder name. -/
def run_pass (now : Clock) (pattern : String) (entries : List String) : String :=
  let tokens := generate_tokens now
  let regex := generate_pattern_regex tokens pattern
  let folders := find_folders regex entries
  let vstr := renderVersion (update_version folders) (find_version_padding pattern)
  resolve_tokens (setVersion tokens vstr) pattern

/-! Basic lemmas about the string-rewriting primitives. -/

theorem char_toNat_inj {c d : Char} (h : c.toNat = d.toNat) : c = d := by
  have hc := Char.ofNat_toNat c
  rw [h, Char.ofNat_toNat] at hc
  exact hc.symm

theorem isPrefixOf_ex : ∀ p s : List Char, p.isPrefixOf s = true → ∃ t, s = p ++ t
  | [], s, _ => ⟨s, rfl⟩
  | _ :: _, [], h => by simp [List.isPrefixOf] at h
  | a :: p, b :: s, h => by
    simp only [List.isPrefixOf, Bool.and_eq_true, beq_iff_eq] at h
    obtain ⟨t, ht⟩ := isPrefixOf_ex p s h.2
    exact ⟨t, by rw [h.1, ht]; rfl⟩

theorem isPrefixOf_app : ∀ p t : List Char, p.isPrefixOf (p ++ t) = true
  | [], _ => by simp [List.isPrefixOf]
  | a :: p, t => by simp [List.isPrefixOf, isPrefixOf_app p t]

theorem not_occurs_head (c0 : Char) (pt : List Char) :
    ∀ s : List Char, c0 ∉ s → occursInB (c0 :: pt) s = false := by
  intro s
  induction s with
  | nil => intro _; rfl
  | cons b s ih =>
    intro h
    have hb : c0 ≠ b := fun he => h (he ▸ List.mem_cons_self b s)
    have hs : c0 ∉ s := fun hm => h (List.mem_cons_of_mem b hm)
    simp only [occursInB, List.isPrefixOf, Bool.or_eq_false_iff, Bool.and_eq_false_iff]
    exact ⟨Or.inl (by simpa using hb), ih hs⟩

theorem occursInB_cons_false {pat : List Char} {c : Char} {rest : List Char}
    (h : occursInB pat (c :: rest) = false) :
    pat.isPrefixOf (c :: rest) = false ∧ occursInB pat rest = false := by
  simpa [occursInB, Bool.or_eq_false_iff] using h

theorem replaceFuel_no_occurs {pat repl : List Char} :
    ∀ n s, occursInB pat s = false → replaceFuel pat repl n s = s := by
  intro n
  induction n with
  | zero => intro s _; rfl
  | succ n ih =>
    intro s h
    cases s with
    | nil => rfl
    | cons c rest =>
      obtain ⟨h1, h2⟩ := occursInB_cons_false h
      simp [replaceFuel, h1, ih rest h2]

theorem replaceAll_no_occurs {pat repl s : List Char}
    (h : occursInB pat s = false) : replaceAll pat repl s = s := by
  have hpat : pat ≠ [] := by
    intro he
    subst he
    cases s with
    | nil => simp [occursInB, List.isEmpty] at h
    | cons c rest => simp [occursInB, List.isPrefixOf] at h
  simp [replaceAll, hpat, replaceFuel_no_occurs _ _ h]

/-- Does the string contain an occurrence of the Version token (primary or
extended form)? -/
def hasVersionTok : List Char → Bool
  | [] => false
  | c :: rest => (vTokAt (c :: rest)).isSome || hasVersionTok rest

theorem versionExtFuel_no_tok {repl : List Char} :
    ∀ n s, hasVersionTok s = false → versionExtFuel repl n s = s := by
  intro n
  induction n with
  | zero => intro s _; rfl
  | succ n ih =>
    intro s h
    cases s with
    | nil => rfl
    | cons c rest =>
      simp only [hasVersionTok, Bool.or_eq_false_iff] at h
      cases hvt : vTokAt (c :: rest) with
      | some k => rw [hvt] at h; simp at h
      | none => simp [versionExtFuel, hvt, ih rest h.2]

theorem versionExtSub_no_tok {repl s : List Char}
    (h : hasVersionTok s = false) : versionExtSub repl s = s :=
  versionExtFuel_no_tok _ _ h

theorem countLeading_replicate_ne {c d : Char} (hne : d ≠ c) (v : List Char) :
    ∀ k, countLeading c (List.replicate k c ++ d :: v) = k := by
  intro k
  induction k with
  | zero => simp [countLeading, hne]
  | succ k ih => simp [List.replicate_succ, countLeading, ih]

theorem countLeading_decomp (c : Char) :
    ∀ u : List Char, ∃ v, u = List.replicate (countLeading c u) c ++ v ∧
      v.head? ≠ some c := by
  intro u
  induction u with
  | nil => exact ⟨[], by simp [countLeading]⟩
  | cons d rest ih =>
    by_cases hd : d = c
    · obtain ⟨v, hv, hh⟩ := ih
      subst hd
      exact ⟨v, by simpa [countLeading, List.replicate_succ] using hv, hh⟩
    · exact ⟨d :: rest, by simp [countLeading, hd], by simpa using hd⟩

theorem vTokAt_eq_some_iff {t : List Char} {k : Nat} :
    vTokAt t = some k ↔ ∃ v, t = vOpen ++ List.replicate k '#' ++ '\x7d' :: v := by
  constructor
  · intro h
    unfold vTokAt at h
    by_cases hp : vOpen.isPrefixOf t = true
    · obtain ⟨after, hafter⟩ := isPrefixOf_ex _ _ hp
      have h8 : List.drop 8 t = after := by
        rw [hafter]; exact List.drop_left' (by rfl)
      rw [hp, if_pos rfl, h8] at h
      obtain ⟨v, hv, hh⟩ := countLeading_decomp '#' after
      set k0 := countLeading '#' after with hk0
      have hdv : List.drop k0 after = v := by
        rw [hv]; exact List.drop_left' (by simp)
      rw [hdv] at h
      by_cases hc : v.head? = some '\x7d'
      · rw [if_pos hc, Option.some_inj] at h
        cases v with
        | nil => simp at hc
        | cons x v' =>
          simp only [List.head?, Option.some.injEq] at hc
          subst hc
          refine ⟨v', ?_⟩
          rw [hafter, ← h, List.append_assoc, ← hv]
      · rw [if_neg hc] at h
        exact absurd h (by simp)
    · simp only [Bool.not_eq_true] at hp
      rw [hp] at h
      simp at h
  · rintro ⟨v, rfl⟩
    have hassoc : vOpen ++ List.replicate k '#' ++ '\x7d' :: v =
        vOpen ++ (List.replicate k '#' ++ '\x7d' :: v) := List.append_assoc _ _ _
    have hp : vOpen.isPrefixOf (vOpen ++ List.replicate k '#' ++ '\x7d' :: v) = true := by
      rw [hassoc]; exact isPrefixOf_app vOpen _
    unfold vTokAt
    have h8 : List.drop 8 (vOpen ++ List.replicate k '#' ++ '\x7d' :: v) =
        List.replicate k '#' ++ '\x7d' :: v := by
      rw [hassoc]; exact List.drop_left' (by rfl)
    rw [hp, if_pos rfl, h8, countLeading_replicate_ne (by decide) v k,
      List.drop_left' (by simp)]
    simp

theorem vTokAt_replicate (k : Nat) (v : List Char) :
    vTokAt (vOpen ++ List.replicate k '#' ++ '\x7d' :: v) = some k :=
  vTokAt_eq_some_iff.mpr ⟨v, rfl⟩

/-! Lemmas about the sort used by `update_version_token`. -/

/-- Sorted ascending by the Python sort key. -/
def SortedK (l : List (String × Option Nat)) : Prop :=
  l.Pairwise (fun a b => keyFolder a ≤ keyFolder b)

theorem mem_insertFolder {x a : String × Option Nat} :
    ∀ {l}, a ∈ insertFolder x l ↔ a = x ∨ a ∈ l := by
  intro l
  induction l with
  | nil => simp [insertFolder]
  | cons y ys ih =>
    by_cases h : keyFolder x < keyFolder y
    · simp [insertFolder, h]
    · simp only [insertFolder, if_neg h, List.mem_cons, ih]
      tauto

theorem insertFolder_ne_nil {x : String × Option Nat} :
    ∀ l, insertFolder x l ≠ [] := by
  intro l
  cases l with
  | nil => simp [insertFolder]
  | cons y ys =>
    by_cases h : keyFolder x < keyFolder y <;> simp [insertFolder, h]

theorem sortedK_insertFolder {x : String × Option Nat} :
    ∀ {l}, SortedK l → SortedK (insertFolder x l) := by
  intro l
  induction l with
  | nil => intro _; simp [insertFolder, SortedK]
  | cons y ys ih =>
    intro hs
    rw [SortedK, List.pairwise_cons] at hs
    by_cases h : keyFolder x < keyFolder y
    · rw [SortedK, insertFolder, if_pos h, List.pairwise_cons]
      refine ⟨?_, ?_⟩
      · intro b hb
        rcases List.mem_cons.mp hb with rfl | hb
        · exact Nat.le_of_lt h
        · exact Nat.le_trans (Nat.le_of_lt h) (hs.1 b hb)
      · rw [List.pairwise_cons]
        exact hs
    · rw [SortedK, insertFolder, if_neg h, List.pairwise_cons]
      refine ⟨?_, ih hs.2⟩
      intro b hb
      rcases mem_insertFolder.mp hb with rfl | hb
      · exact Nat.le_of_not_lt h
      · exact hs.1 b hb

theorem sortFolders_aux_sorted :
    ∀ (l acc : List (String × Option Nat)), SortedK acc →
      SortedK (l.foldl (fun acc x => insertFolder x acc) acc) := by
  intro l
  induction l with
  | nil => intro acc h; exact h
  | cons x xs ih =>
    intro acc h
    exact ih _ (sortedK_insertFolder h)

theorem sortFolders_aux_mem :
    ∀ (l acc : List (String × Option Nat)) (a),
      a ∈ l.foldl (fun acc x => insertFolder x acc) acc ↔ a ∈ acc ∨ a ∈ l := by
  intro l
  induction l with
  | nil => intro acc a; simp
  | cons x xs ih =>
    intro acc a
    rw [List.foldl_cons, ih, mem_insertFolder]
    simp only [List.mem_cons]
    tauto

theorem sortedK_sortFolders (l : List (String × Option Nat)) :
    SortedK (sortFolders l) :=
  sortFolders_aux_sorted l [] (by simp [SortedK])

theorem mem_sortFolders {l : List (String × Option Nat)} {a} :
    a ∈ sortFolders l ↔ a ∈ l := by
  rw [sortFolders, sortFolders_aux_mem]
  simp

theorem sortedK_le_getLast :
    ∀ {l : List (String × Option Nat)}, SortedK l →
      ∀ a ∈ l, ∀ z, l.getLast? = some z → keyFolder a ≤ keyFolder z := by
  intro l
  induction l with
  | nil => intro _ a ha; exact absurd ha (by simp)
  | cons y ys ih =>
    intro hs a ha z hz
    rw [SortedK, List.pairwise_cons] at hs
    cases ys with
    | nil =>
      simp only [List.getLast?_singleton, Option.some_inj] at hz
      subst hz
      rcases List.mem_cons.mp ha with rfl | ha
      · exact Nat.le_refl _
      · exact absurd ha (by simp)
    | cons w ws =>
      rw [List.getLast?_cons_cons] at hz
      have hzmem : z ∈ w :: ws := by
        have := List.getLast?_eq_getLast (w :: ws) (by simp)
        rw [this, Option.some_inj] at hz
        rw [← hz]
        exact List.getLast_mem _
      rcases List.mem_cons.mp ha with rfl | ha
      · exact hs.1 z hzmem
      · exact ih hs.2 a ha z hz

/-! Lemmas about the matcher. -/

theorem inCls_single {c d : Char} : inCls [(c, c)] d = true ↔ d = c := by
  constructor
  · intro h
    simp only [inCls, List.any_cons, List.any_nil, Bool.or_false,
      Bool.and_eq_true, decide_eq_true_eq] at h
    exact char_toNat_inj (Nat.le_antisymm h.2 h.1)
  · rintro rfl
    simp [inCls]

theorem starRests_decomp {rs : List (Char × Char)} :
    ∀ {s t : List Char}, t ∈ starRests rs s →
      ∃ u, s = u ++ t ∧ ∀ c ∈ u, inCls rs c = true := by
  intro s
  induction s with
  | nil =>
    intro t ht
    simp only [starRests, List.mem_singleton] at ht
    exact ⟨[], by simp [ht]⟩
  | cons c rest ih =>
    intro t ht
    by_cases hc : inCls rs c = true
    · rw [starRests, if_pos hc, List.mem_append] at ht
      rcases ht with ht | ht
      · obtain ⟨u, hu, hall⟩ := ih ht
        refine ⟨c :: u, by simp [hu], ?_⟩
        intro d hd
        rcases List.mem_cons.mp hd with rfl | hd
        · exact hc
        · exact hall d hd
      · simp only [List.mem_singleton] at ht
        exact ⟨[], by simp [ht]⟩
    · rw [starRests, if_neg hc, List.mem_singleton] at ht
      exact ⟨[], by simp [ht]⟩

theorem mall_decomp :
    ∀ (r : Reg) (s : List Char) (p), p ∈ mall r s → ∃ u, s = u ++ p.1 := by
  intro r
  induction r with
  | eps =>
    intro s p hp
    simp only [mall, List.mem_singleton] at hp
    exact ⟨[], by simp [hp]⟩
  | cls rs =>
    intro s p hp
    cases s with
    | nil => simp [mall] at hp
    | cons c rest =>
      by_cases hc : inCls rs c = true
      · rw [mall, if_pos hc, List.mem_singleton] at hp
        exact ⟨[c], by simp [hp]⟩
      · rw [mall, if_neg hc] at hp
        exact absurd hp (by simp)
  | starCls rs =>
    intro s p hp
    simp only [mall, List.mem_map] at hp
    obtain ⟨t, ht, rfl⟩ := hp
    obtain ⟨u, hu, _⟩ := starRests_decomp ht
    exact ⟨u, hu⟩
  | cat a b iha ihb =>
    intro s p hp
    simp only [mall, List.mem_flatMap, List.mem_map] at hp
    obtain ⟨p1, hp1, q, hq, rfl⟩ := hp
    obtain ⟨u1, hu1⟩ := iha s p1 hp1
    obtain ⟨u2, hu2⟩ := ihb p1.1 q hq
    exact ⟨u1 ++ u2, by simp [hu1, hu2, List.append_assoc]⟩
  | group a iha =>
    intro s p hp
    simp only [mall, List.mem_map] at hp
    obtain ⟨p1, hp1, rfl⟩ := hp
    exact iha s p1 hp1

theorem mall_take {r : Reg} {s : List Char} {p} (hp : p ∈ mall r s) :
    ∃ u, s = u ++ p.1 ∧ List.take (s.length - p.1.length) s = u := by
  obtain ⟨u, hu⟩ := mall_decomp r s p hp
  refine ⟨u, hu, ?_⟩
  have hlen : s.length - p.1.length = u.length := by
    rw [hu, List.length_append]; omega
  rw [hlen, hu]
  exact List.take_left u p.1

/-! Helper lemmas for the invalid-regex path. -/

theorem parseReg_of_invalid {regex : String} (h : regexInvalid regex = true) :
    ∃ e, parseReg regex = .error e := by
  unfold regexInvalid at h
  cases hp : parseReg regex with
  | ok r => rw [hp] at h; simp at h
  | error e => exact ⟨e, rfl⟩

theorem capture_tokens_invalid {regex : String} (h : regexInvalid regex = true)
    (entry : String) : capture_tokens regex entry = none := by
  obtain ⟨e, he⟩ := parseReg_of_invalid h
  simp [capture_tokens, he]

theorem find_folders_invalid {regex : String} (h : regexInvalid regex = true)
    (entries : List String) : find_folders regex entries = [] := by
  induction entries with
  | nil => rfl
  | cons e es ih =>
    unfold find_folders at ih ⊢
    rw [List.filterMap_cons, capture_tokens_invalid h e]
    simpa using ih

/-! The claim theorems. -/

/-- C1: for every sequence of scanned folder matches, the version resolver
returns max+1 when at least one match carries a version integer (the maximum
taken by numeric comparison), and 1 when no match carries one — including
when the pattern has no version token, the directory is empty, or nothing
matched.  A scanned set is homogeneous (the presence of a version depends
only on the compiled regex's group count, identical for all entries), which
the first clause's hypothesis reflects; within it "at least one carries a
version" is the existence of the maximum `mx`. -/
theorem c1_resolve_next (folders : List (String × Option Nat)) :
    ((∀ m ∈ folders, (m.2).isSome = true) →
      ∀ mx, mx ∈ folders.filterMap Prod.snd →
        (∀ v ∈ folders.filterMap Prod.snd, v ≤ mx) →
        update_version folders = mx + 1)
    ∧ ((∀ m ∈ folders, m.2 = none) → update_version folders = 1) := by
  constructor
  · intro hall mx hmx hub
    have hallb : folders.all (fun f => f.2.isSome) = true :=
      List.all_eq_true.mpr hall
    obtain ⟨f, hf, hfv⟩ := List.mem_filterMap.mp hmx
    have hfs : f ∈ sortFolders folders := mem_sortFolders.mpr hf
    have hne : sortFolders folders ≠ [] := List.ne_nil_of_mem hfs
    have hz := List.getLast?_eq_getLast (sortFolders folders) hne
    set z := (sortFolders folders).getLast hne with hzdef
    have h1 : keyFolder f ≤ keyFolder z :=
      sortedK_le_getLast (sortedK_sortFolders folders) f hfs z hz
    have hkf : keyFolder f = mx := by simp [keyFolder, hfv]
    have hzmem : z ∈ folders := mem_sortFolders.mp (List.getLast_mem hne)
    have hzk : z.2 = some (keyFolder z) := by
      have hzsome := hall z hzmem
      cases hzv : z.2 with
      | none => rw [hzv] at hzsome; simp at hzsome
      | some v => simp [keyFolder, hzv]
    have h2 : keyFolder z ≤ mx :=
      hub _ (List.mem_filterMap.mpr ⟨z, hzmem, hzk⟩)
    rw [update_version, if_pos hallb, hz]
    have : keyFolder z = mx := Nat.le_antisymm h2 (hkf ▸ h1)
    simp [this]
  · intro hnone
    cases folders with
    | nil => rfl
    | cons f fs =>
      have hf := hnone f (List.mem_cons_self f fs)
      have hb : (f :: fs).all (fun x => x.2.isSome) = false := by
        simp [List.all_cons, hf]
      rw [update_version, if_neg (by simp [hb])]

/-- Witness for C1: numeric ordering gives 9, 10, 11 the successor 12 (not a
lexicographic 2), and a scan without versions resolves to 1. -/
theorem c1_resolve_next_witness :
    update_version [("a", some 9), ("b", some 10), ("c", some 11)] = 12 ∧
    update_version [("x", none), ("y", none)] = 1 := by
  constructor
  · exact (c1_resolve_next _).1 (by decide) 11 (by decide) (by decide)
  · exact (c1_resolve_next _).2 (by decide)

/-- C5: the resolver renders the next version as its decimal string,
left-padded with `'0'` to at least the detected width, never truncating; with
padding 2 the value 3 renders as "03". -/
theorem c5_zero_padding (v padding : Nat) :
    (∃ z, renderVersion v padding =
        String.mk (List.replicate z '0' ++ (toString v).data)) ∧
    (renderVersion v padding).length = max padding (toString v).length ∧
    renderVersion 3 2 = "03" := by
  refine ⟨⟨padding - (toString v).length, rfl⟩, ?_, by decide⟩
  show (List.replicate (padding - (toString v).length) '0' ++
      (toString v).data).length = _
  rw [List.length_append, List.length_replicate]
  have : (toString v).data.length = (toString v).length := rfl
  omega

/-- C9: matching never raises: a syntactically invalid compiled pattern makes
the match operation return `None` for every entry (the `re.error` is caught
inside `capture_tokens`), so the scan is empty and the version resolves to 1
instead of an exception propagating. -/
theorem c9_invalid_regex_no_crash (regex : String)
    (hbad : regexInvalid regex = true) :
    (∀ entry : String, capture_tokens regex entry = none) ∧
    (∀ entries : List String, find_folders regex entries = [] ∧
      update_version (find_folders regex entries) = 1) := by
  refine ⟨capture_tokens_invalid hbad, fun entries => ?_⟩
  have h := find_folders_invalid hbad entries
  exact ⟨h, by rw [h]; decide⟩

/-- Witness for C9, on the duplicate-named-group regex that a pattern with
two version tokens compiles to. -/
theorem c9_invalid_regex_no_crash_witness :
    capture_tokens "0*(?P<version>[1-9][0-9]*)_0*(?P<version>[1-9][0-9]*)"
      "1_1" = none ∧
    find_folders "0*(?P<version>[1-9][0-9]*)_0*(?P<version>[1-9][0-9]*)"
      ["1_1", "2_2"] = [] ∧
    update_version (find_folders
      "0*(?P<version>[1-9][0-9]*)_0*(?P<version>[1-9][0-9]*)"
      ["1_1", "2_2"]) = 1 := by
  have h := c9_invalid_regex_no_crash
    "0*(?P<version>[1-9][0-9]*)_0*(?P<version>[1-9][0-9]*)" (by decide)
  exact ⟨h.1 _, (h.2 _).1, (h.2 _).2⟩

/-- C6 counterexample: a pattern repeating the version token compiles to a
string that is not a valid regex (duplicate named group), yet no
`PatternError` aborts the pass: the pass completes and produces the fresh
resolved name "1_1" — the previously resolved name does not remain. -/
theorem c6_counterexample :
    regexInvalid (generate_pattern_regex
      (generate_tokens ⟨"am", "AM", "05", "07", "19", "33", "06", "23", "2023"⟩)
      "\x7bversion\x7d_\x7bversion\x7d") = true ∧
    run_pass ⟨"am", "AM", "05", "07", "19", "33", "06", "23", "2023"⟩
      "\x7bversion\x7d_\x7bversion\x7d" ["existing_1"] = "1_1" :=
  ⟨by decide, by decide⟩

/-- C6 as amended: when the compiled pattern string is not a valid regular
expression, no error surfaces at all — the match step swallows the `re.error`
and treats every entry as a non-match, the pass completes, the version
resolves to 1, and a new resolved name is still produced by substitution. -/
theorem c6_invalid_pattern_completes (now : Clock) (pattern : String)
    (entries : List String)
    (hbad : regexInvalid
      (generate_pattern_regex (generate_tokens now) pattern) = true) :
    find_folders (generate_pattern_regex (generate_tokens now) pattern)
      entries = [] ∧
    run_pass now pattern entries =
      resolve_tokens (setVersion (generate_tokens now)
        (renderVersion 1 (find_version_padding pattern))) pattern := by
  have h := find_folders_invalid hbad entries
  refine ⟨h, ?_⟩
  simp only [run_pass, h]
  have hu : update_version [] = 1 := by decide
  rw [hu]

/-- Witness for C6's amended theorem, at the repeated-version-token
pattern. -/
theorem c6_invalid_pattern_completes_witness :
    find_folders (generate_pattern_regex
      (generate_tokens ⟨"am", "AM", "05", "07", "19", "33", "06", "23", "2023"⟩)
      "\x7bversion\x7d_\x7bversion\x7d") ["x"] = [] ∧
    run_pass ⟨"am", "AM", "05", "07", "19", "33", "06", "23", "2023"⟩
      "\x7bversion\x7d_\x7bversion\x7d" ["x"] =
      resolve_tokens (setVersion
        (generate_tokens ⟨"am", "AM", "05", "07", "19", "33", "06", "23", "2023"⟩)
        (renderVersion 1 (find_version_padding "\x7bversion\x7d_\x7bversion\x7d")))
        "\x7bversion\x7d_\x7bversion\x7d" :=
  c6_invalid_pattern_completes _ _ _ (by decide)

/-! Helper lemmas for the substitution passes. -/

theorem pySub_version (repl s : List Char) :
    pySub "\x7bversion#*\x7d".data repl s = versionExtSub repl s := by
  rw [pySub, if_pos rfl]

theorem pySub_lit_skip {tok frag s : List Char}
    (hne : tok ≠ "\x7bversion#*\x7d".data) (h : occursInB tok s = false) :
    pySub tok frag s = s := by
  rw [pySub, if_neg hne]
  exact replaceAll_no_occurs h

theorem not_occurs_cons2 {c2 : Char} {pt : List Char} {s2 : Char}
    {srest : List Char} (hne : s2 ≠ c2) (hnb : '\x7b' ∉ s2 :: srest) :
    occursInB ('\x7b' :: c2 :: pt) ('\x7b' :: s2 :: srest) = false := by
  have h2 : occursInB ('\x7b' :: c2 :: pt) (s2 :: srest) = false :=
    not_occurs_head _ _ _ hnb
  have h1 : ('\x7b' :: c2 :: pt).isPrefixOf ('\x7b' :: s2 :: srest) = false := by
    simp only [List.isPrefixOf, Bool.and_eq_false_iff]
    right
    left
    simpa using fun h => hne h.symm
  show (('\x7b' :: c2 :: pt).isPrefixOf ('\x7b' :: s2 :: srest) ||
      occursInB ('\x7b' :: c2 :: pt) (s2 :: srest)) = false
  simp [h1, h2]

theorem versionExtFuel_nil (repl : List Char) : ∀ n, versionExtFuel repl n [] = [] := by
  intro n
  cases n <;> rfl

theorem versionExtFuel_exact (repl : List Char) (k : Nat) :
    versionExtFuel repl (vOpen ++ List.replicate k '#' ++ ['\x7d']).length
      (vOpen ++ List.replicate k '#' ++ ['\x7d']) = repl := by
  have hsplit : vOpen ++ List.replicate k '#' ++ ['\x7d'] =
      '\x7b' :: ('v' :: 'e' :: 'r' :: 's' :: 'i' :: 'o' :: 'n' ::
        (List.replicate k '#' ++ ['\x7d'])) := by
    simp [vOpen]
  have hlen : (vOpen ++ List.replicate k '#' ++ ['\x7d']).length = (8 + k) + 1 := by
    simp [vOpen]
    omega
  have htok : vTokAt (vOpen ++ List.replicate k '#' ++ ['\x7d']) = some k :=
    vTokAt_replicate k []
  rw [hlen]
  conv_lhs => rw [hsplit]
  rw [versionExtFuel, ← hsplit, htok]
  dsimp only
  have hdrop : List.drop (8 + k)
      ('v' :: 'e' :: 'r' :: 's' :: 'i' :: 'o' :: 'n' ::
        (List.replicate k '#' ++ ['\x7d'])) = [] := by
    have hl : ('v' :: 'e' :: 'r' :: 's' :: 'i' :: 'o' :: 'n' ::
        (List.replicate k '#' ++ ['\x7d'])).length = 8 + k := by
      simp
      omega
    rw [← hl]
    exact List.drop_length _
  rw [hdrop, versionExtFuel_nil, List.append_nil]

theorem versionExtSub_exact (repl : List Char) (k : Nat) :
    versionExtSub repl (vOpen ++ List.replicate k '#' ++ ['\x7d']) = repl :=
  versionExtFuel_exact repl k

/-- All positions inside `pre` (as a suffix list) fail to start a version
token when followed by `s`. -/
def scanSkips (s : List Char) : List Char → Bool
  | [] => true
  | c :: t => (vTokAt ((c :: t) ++ s)).isNone && scanSkips s t

theorem versionExtFuel_pre (repl : List Char) :
    ∀ (pre : List Char) (s : List Char) (n : Nat), scanSkips s pre = true →
      versionExtFuel repl (pre.length + n) (pre ++ s) =
        pre ++ versionExtFuel repl n s := by
  intro pre
  induction pre with
  | nil =>
    intro s n _
    simp only [List.length_nil, Nat.zero_add, List.nil_append]
  | cons c t ih =>
    intro s n hskip
    simp only [scanSkips, Bool.and_eq_true, Option.isNone_iff_eq_none] at hskip
    have hstep : (c :: t).length + n = (t.length + n) + 1 := by
      simp
      omega
    rw [hstep]
    show versionExtFuel repl ((t.length + n) + 1) (c :: (t ++ s)) = _
    rw [versionExtFuel]
    have : vTokAt (c :: (t ++ s)) = none := by
      have h := hskip.1
      simpa using h
    rw [this]
    simp only [List.cons_append]
    rw [ih s n hskip.2]

theorem versionExtSub_append_exact (repl : List Char) (pre : List Char) (k : Nat)
    (hskip : scanSkips (vOpen ++ List.replicate k '#' ++ ['\x7d']) pre = true) :
    versionExtSub repl (pre ++ (vOpen ++ List.replicate k '#' ++ ['\x7d'])) =
      pre ++ repl := by
  unfold versionExtSub
  rw [List.length_append, versionExtFuel_pre repl pre _ _ hskip,
    versionExtFuel_exact]

theorem brace_not_mem_vtail (k : Nat) :
    '\x7b' ∉ ('v' :: 'e' :: 'r' :: 's' :: 'i' :: 'o' :: 'n' ::
      (List.replicate k '#' ++ ['\x7d'])) := by
  intro h
  simp only [List.mem_cons, List.mem_append, List.mem_singleton,
    List.mem_replicate] at h
  rcases h with h | h | h | h | h | h | h | h | h
  all_goals first
    | exact absurd h (by decide)
    | exact absurd h.2 (by decide)

theorem occursInB_vtok_false {c2 : Char} {pt : List Char} (k : Nat)
    (hne : c2 ≠ 'v') :
    occursInB ('\x7b' :: c2 :: pt)
      (vOpen ++ List.replicate k '#' ++ ['\x7d']) = false := by
  show occursInB ('\x7b' :: c2 :: pt)
    ('\x7b' :: ('v' :: 'e' :: 'r' :: 's' :: 'i' :: 'o' :: 'n' ::
      (List.replicate k '#' ++ ['\x7d']))) = false
  exact not_occurs_cons2 (fun h => hne h.symm) (brace_not_mem_vtail k)

/-! Structural lemmas for the two substitution folds. -/

theorem resolve_tokens_cons (t : String × Token) (ts : List (String × Token))
    (p : String) :
    resolve_tokens (t :: ts) p = resolve_tokens ts (String.mk (valStep t p.data)) :=
  rfl

theorem resolve_tokens_append (l1 l2 : List (String × Token)) (p : String) :
    resolve_tokens (l1 ++ l2) p = resolve_tokens l2 (resolve_tokens l1 p) := by
  simp [resolve_tokens, List.foldl_append]

theorem resolve_tokens_skip_all (ts : List (String × Token)) (p : String)
    (h : ∀ t ∈ ts, valStep t p.data = p.data) : resolve_tokens ts p = p := by
  induction ts with
  | nil => rfl
  | cons t ts ih =>
    rw [resolve_tokens_cons, h t (List.mem_cons_self t ts)]
    have he : String.mk p.data = p := rfl
    rw [he]
    exact ih fun t ht => h t (List.mem_cons_of_mem _ ht)

theorem gpr_cons (t : String × Token) (ts : List (String × Token)) (p : String) :
    generate_pattern_regex (t :: ts) p =
      generate_pattern_regex ts (String.mk (regStep t p.data)) :=
  rfl

theorem gpr_append (l1 l2 : List (String × Token)) (p : String) :
    generate_pattern_regex (l1 ++ l2) p =
      generate_pattern_regex l2 (generate_pattern_regex l1 p) := by
  simp [generate_pattern_regex, List.foldl_append]

theorem gpr_skip_all (ts : List (String × Token)) (p : String)
    (h : ∀ t ∈ ts, regStep t p.data = p.data) :
    generate_pattern_regex ts p = p := by
  induction ts with
  | nil => rfl
  | cons t ts ih =>
    rw [gpr_cons, h t (List.mem_cons_self t ts)]
    have he : String.mk p.data = p := rfl
    rw [he]
    exact ih fun t ht => h t (List.mem_cons_of_mem _ ht)

/-- The compiled regex does not depend on the token values: only the
`token_regex` and `pattern_regex` fields enter `generate_pattern_regex`. -/
theorem gpr_value_irrel (now now2 : Clock) (p : String) :
    generate_pattern_regex (generate_tokens now) p =
      generate_pattern_regex (generate_tokens now2) p := rfl

/-- A fixed clock used to evaluate value-independent computations. -/
def clock0 : Clock := ⟨"", "", "", "", "", "", "", "", ""⟩

/-- C3: the compiler substitutes each token's extended placeholder syntax in
place of the primary one when an extended syntax exists (Version), and the
primary placeholder otherwise, replacing it with the token's match fragment:
the pattern with YYYY, MM, DD compiles to the concatenated digit classes, and
for every hash count `k` the version placeholder (primary when `k = 0`,
extended otherwise) compiles to the capturing version fragment. -/
theorem c3_pattern_compiler (now : Clock) (k : Nat) :
    generate_pattern_regex (generate_tokens now) "\x7bYYYY\x7d_\x7bMM\x7d_\x7bDD\x7d" =
      "[0-9]\x7b4\x7d_[0-9]\x7b2\x7d_[0-9]\x7b2\x7d" ∧
    generate_pattern_regex (generate_tokens now)
      (String.mk (vOpen ++ List.replicate k '#' ++ ['\x7d'])) =
      "0*(?P<version>[1-9][0-9]*)" := by
  constructor
  · rw [gpr_value_irrel now clock0]
    decide
  · rw [gpr_value_irrel now clock0]
    rw [show generate_tokens clock0 =
      [("am/pm", ⟨"\x7bpp\x7d", none, "[a-z]\x7b2\x7d", ""⟩),
       ("AM/PM", ⟨"\x7bPP\x7d", none, "[A-Z]\x7b2\x7d", ""⟩),
       ("Day", ⟨"\x7bDD\x7d", none, "[0-9]\x7b2\x7d", ""⟩),
       ("Hour (12hr)", ⟨"\x7bhh\x7d", none, "[0-9]\x7b2\x7d", ""⟩),
       ("Hour (24hr)", ⟨"\x7bHH\x7d", none, "[0-9]\x7b2\x7d", ""⟩),
       ("Minute", ⟨"\x7bmm\x7d", none, "[0-9]\x7b2\x7d", ""⟩),
       ("Month", ⟨"\x7bMM\x7d", none, "[0-9]\x7b2\x7d", ""⟩)] ++
      (("Version", ⟨"\x7bversion\x7d", some "\x7bversion#*\x7d",
          "0*(?P<version>[1-9][0-9]*)", "1"⟩) ::
       [("Year (##)", ⟨"\x7bYY\x7d", none, "[0-9]\x7b2\x7d", ""⟩),
        ("Year (####)", ⟨"\x7bYYYY\x7d", none, "[0-9]\x7b4\x7d", ""⟩)]) from rfl]
    rw [gpr_append]
    have hpre : generate_pattern_regex
        [("am/pm", ⟨"\x7bpp\x7d", none, "[a-z]\x7b2\x7d", ""⟩),
         ("AM/PM", ⟨"\x7bPP\x7d", none, "[A-Z]\x7b2\x7d", ""⟩),
         ("Day", ⟨"\x7bDD\x7d", none, "[0-9]\x7b2\x7d", ""⟩),
         ("Hour (12hr)", ⟨"\x7bhh\x7d", none, "[0-9]\x7b2\x7d", ""⟩),
         ("Hour (24hr)", ⟨"\x7bHH\x7d", none, "[0-9]\x7b2\x7d", ""⟩),
         ("Minute", ⟨"\x7bmm\x7d", none, "[0-9]\x7b2\x7d", ""⟩),
         ("Month", ⟨"\x7bMM\x7d", none, "[0-9]\x7b2\x7d", ""⟩)]
        (String.mk (vOpen ++ List.replicate k '#' ++ ['\x7d'])) =
        String.mk (vOpen ++ List.replicate k '#' ++ ['\x7d']) := by
      apply gpr_skip_all
      intro t ht
      simp only [List.mem_cons, List.not_mem_nil, or_false] at ht
      rcases ht with rfl | rfl | rfl | rfl | rfl | rfl | rfl
      all_goals dsimp only [regStep]
      · exact pySub_lit_skip (by decide) (occursInB_vtok_false k (by decide))
      · exact pySub_lit_skip (by decide) (occursInB_vtok_false k (by decide))
      · exact pySub_lit_skip (by decide) (occursInB_vtok_false k (by decide))
      · exact pySub_lit_skip (by decide) (occursInB_vtok_false k (by decide))
      · exact pySub_lit_skip (by decide) (occursInB_vtok_false k (by decide))
      · exact pySub_lit_skip (by decide) (occursInB_vtok_false k (by decide))
      · exact pySub_lit_skip (by decide) (occursInB_vtok_false k (by decide))
    rw [hpre, gpr_cons]
    have hv2 : regStep ("Version", ⟨"\x7bversion\x7d", some "\x7bversion#*\x7d",
        "0*(?P<version>[1-9][0-9]*)", "1"⟩)
        (String.mk (vOpen ++ List.replicate k '#' ++ ['\x7d'])).data =
        "0*(?P<version>[1-9][0-9]*)".data := by
      show pySub "\x7bversion#*\x7d".data "0*(?P<version>[1-9][0-9]*)".data
        (vOpen ++ List.replicate k '#' ++ ['\x7d']) = _
      rw [pySub_version]
      exact versionExtSub_exact _ k
    rw [hv2]
    exact (by decide : generate_pattern_regex
      [("Year (##)", ⟨"\x7bYY\x7d", none, "[0-9]\x7b2\x7d", ""⟩),
       ("Year (####)", ⟨"\x7bYYYY\x7d", none, "[0-9]\x7b4\x7d", ""⟩)]
      "0*(?P<version>[1-9][0-9]*)" = "0*(?P<version>[1-9][0-9]*)")

/-- The pattern contains no occurrence of any table token: none of the nine
literal placeholders occurs, and no version token (primary or extended)
occurs. -/
def tokenFree (p : String) : Prop :=
  occursInB "\x7bpp\x7d".data p.data = false ∧
  occursInB "\x7bPP\x7d".data p.data = false ∧
  occursInB "\x7bDD\x7d".data p.data = false ∧
  occursInB "\x7bhh\x7d".data p.data = false ∧
  occursInB "\x7bHH\x7d".data p.data = false ∧
  occursInB "\x7bmm\x7d".data p.data = false ∧
  occursInB "\x7bMM\x7d".data p.data = false ∧
  occursInB "\x7bYY\x7d".data p.data = false ∧
  occursInB "\x7bYYYY\x7d".data p.data = false ∧
  hasVersionTok p.data = false

/-- C7: the name resolver leaves placeholder text not recognized by any
token untouched while substituting recognized tokens: a pattern free of all
table tokens resolves to itself unchanged, and the pattern
`"\x7bunknown\x7d_v\x7bversion\x7d"` resolves with `\x7bunknown\x7d` left literally and
`\x7bversion\x7d` replaced by the Version token's current value. -/
theorem c7_unknown_passthrough :
    (∀ (now : Clock) (p : String), tokenFree p →
      resolve_tokens (generate_tokens now) p = p) ∧
    (∀ (now : Clock) (vv : String), (∀ c ∈ vv.data, c ≠ '\x7b') →
      resolve_tokens (setVersion (generate_tokens now) vv)
        "\x7bunknown\x7d_v\x7bversion\x7d" = "\x7bunknown\x7d_v" ++ vv) := by
  constructor
  · intro now p hfree
    obtain ⟨h1, h2, h3, h4, h5, h6, h7, h8, h9, h10⟩ := hfree
    apply resolve_tokens_skip_all
    intro t ht
    rw [show generate_tokens now =
      [("am/pm", ⟨"\x7bpp\x7d", none, "[a-z]\x7b2\x7d", now.pLower⟩),
       ("AM/PM", ⟨"\x7bPP\x7d", none, "[A-Z]\x7b2\x7d", now.pUpper⟩),
       ("Day", ⟨"\x7bDD\x7d", none, "[0-9]\x7b2\x7d", now.day⟩),
       ("Hour (12hr)", ⟨"\x7bhh\x7d", none, "[0-9]\x7b2\x7d", now.hour12⟩),
       ("Hour (24hr)", ⟨"\x7bHH\x7d", none, "[0-9]\x7b2\x7d", now.hour24⟩),
       ("Minute", ⟨"\x7bmm\x7d", none, "[0-9]\x7b2\x7d", now.minute⟩),
       ("Month", ⟨"\x7bMM\x7d", none, "[0-9]\x7b2\x7d", now.month⟩),
       ("Version", ⟨"\x7bversion\x7d", some "\x7bversion#*\x7d",
                    "0*(?P<version>[1-9][0-9]*)", "1"⟩),
       ("Year (##)", ⟨"\x7bYY\x7d", none, "[0-9]\x7b2\x7d", now.yearYY⟩),
       ("Year (####)", ⟨"\x7bYYYY\x7d", none, "[0-9]\x7b4\x7d", now.yearYYYY⟩)]
      from rfl] at ht
    simp only [List.mem_cons, List.not_mem_nil, or_false] at ht
    rcases ht with rfl | rfl | rfl | rfl | rfl | rfl | rfl | rfl | rfl | rfl
    all_goals dsimp only [valStep]
    · exact pySub_lit_skip (by decide) h1
    · exact pySub_lit_skip (by decide) h2
    · exact pySub_lit_skip (by decide) h3
    · exact pySub_lit_skip (by decide) h4
    · exact pySub_lit_skip (by decide) h5
    · exact pySub_lit_skip (by decide) h6
    · exact pySub_lit_skip (by decide) h7
    · show pySub "\x7bversion#*\x7d".data "1".data p.data = p.data
      rw [pySub_version]
      exact versionExtSub_no_tok h10
    · exact pySub_lit_skip (by decide) h8
    · exact pySub_lit_skip (by decide) h9
  · intro now vv hv
    have hnb : '\x7b' ∉ ('u' :: ("nknown\x7d_v".data ++ vv.data)) := by
      intro h
      rcases List.mem_cons.mp h with h | h
      · exact absurd h (by decide)
      · rcases List.mem_append.mp h with h | h
        · exact absurd h (by decide)
        · exact absurd rfl (hv _ h)
    have hYY : occursInB "\x7bYY\x7d".data
        ("\x7bunknown\x7d_v".data ++ vv.data) = false := by
      show occursInB ('\x7b' :: 'Y' :: 'Y' :: '\x7d' :: [])
        ('\x7b' :: ('u' :: ("nknown\x7d_v".data ++ vv.data))) = false
      exact not_occurs_cons2 (by decide) hnb
    have hYYYY : occursInB "\x7bYYYY\x7d".data
        ("\x7bunknown\x7d_v".data ++ vv.data) = false := by
      show occursInB ('\x7b' :: 'Y' :: 'Y' :: 'Y' :: 'Y' :: '\x7d' :: [])
        ('\x7b' :: ('u' :: ("nknown\x7d_v".data ++ vv.data))) = false
      exact not_occurs_cons2 (by decide) hnb
    rw [show setVersion (generate_tokens now) vv =
      [("am/pm", ⟨"\x7bpp\x7d", none, "[a-z]\x7b2\x7d", now.pLower⟩),
       ("AM/PM", ⟨"\x7bPP\x7d", none, "[A-Z]\x7b2\x7d", now.pUpper⟩),
       ("Day", ⟨"\x7bDD\x7d", none, "[0-9]\x7b2\x7d", now.day⟩),
       ("Hour (12hr)", ⟨"\x7bhh\x7d", none, "[0-9]\x7b2\x7d", now.hour12⟩),
       ("Hour (24hr)", ⟨"\x7bHH\x7d", none, "[0-9]\x7b2\x7d", now.hour24⟩),
       ("Minute", ⟨"\x7bmm\x7d", none, "[0-9]\x7b2\x7d", now.minute⟩),
       ("Month", ⟨"\x7bMM\x7d", none, "[0-9]\x7b2\x7d", now.month⟩)] ++
      (("Version", ⟨"\x7bversion\x7d", some "\x7bversion#*\x7d",
          "0*(?P<version>[1-9][0-9]*)", vv⟩) ::
       [("Year (##)", ⟨"\x7bYY\x7d", none, "[0-9]\x7b2\x7d", now.yearYY⟩),
        ("Year (####)", ⟨"\x7bYYYY\x7d", none, "[0-9]\x7b4\x7d", now.yearYYYY⟩)])
      from rfl]
    rw [resolve_tokens_append]
    have hpre : resolve_tokens
        [("am/pm", ⟨"\x7bpp\x7d", none, "[a-z]\x7b2\x7d", now.pLower⟩),
         ("AM/PM", ⟨"\x7bPP\x7d", none, "[A-Z]\x7b2\x7d", now.pUpper⟩),
         ("Day", ⟨"\x7bDD\x7d", none, "[0-9]\x7b2\x7d", now.day⟩),
         ("Hour (12hr)", ⟨"\x7bhh\x7d", none, "[0-9]\x7b2\x7d", now.hour12⟩),
         ("Hour (24hr)", ⟨"\x7bHH\x7d", none, "[0-9]\x7b2\x7d", now.hour24⟩),
         ("Minute", ⟨"\x7bmm\x7d", none, "[0-9]\x7b2\x7d", now.minute⟩),
         ("Month", ⟨"\x7bMM\x7d", none, "[0-9]\x7b2\x7d", now.month⟩)]
        "\x7bunknown\x7d_v\x7bversion\x7d" = "\x7bunknown\x7d_v\x7bversion\x7d" := by
      apply resolve_tokens_skip_all
      intro t ht
      simp only [List.mem_cons, List.not_mem_nil, or_false] at ht
      rcases ht with rfl | rfl | rfl | rfl | rfl | rfl | rfl
      all_goals dsimp only [valStep]
      · exact pySub_lit_skip (by decide) (by decide)
      · exact pySub_lit_skip (by decide) (by decide)
      · exact pySub_lit_skip (by decide) (by decide)
      · exact pySub_lit_skip (by decide) (by decide)
      · exact pySub_lit_skip (by decide) (by decide)
      · exact pySub_lit_skip (by decide) (by decide)
      · exact pySub_lit_skip (by decide) (by decide)
    rw [hpre, resolve_tokens_cons]
    have hstep : valStep ("Version", ⟨"\x7bversion\x7d", some "\x7bversion#*\x7d",
        "0*(?P<version>[1-9][0-9]*)", vv⟩) "\x7bunknown\x7d_v\x7bversion\x7d".data =
        "\x7bunknown\x7d_v".data ++ vv.data := by
      show pySub "\x7bversion#*\x7d".data vv.data
        "\x7bunknown\x7d_v\x7bversion\x7d".data = _
      rw [pySub_version,
        show "\x7bunknown\x7d_v\x7bversion\x7d".data =
          "\x7bunknown\x7d_v".data ++ (vOpen ++ List.replicate 0 '#' ++ ['\x7d'])
          from by decide]
      exact versionExtSub_append_exact vv.data _ 0 (by decide)
    rw [hstep]
    have hpost : resolve_tokens
        [("Year (##)", ⟨"\x7bYY\x7d", none, "[0-9]\x7b2\x7d", now.yearYY⟩),
         ("Year (####)", ⟨"\x7bYYYY\x7d", none, "[0-9]\x7b4\x7d", now.yearYYYY⟩)]
        (String.mk ("\x7bunknown\x7d_v".data ++ vv.data)) =
        String.mk ("\x7bunknown\x7d_v".data ++ vv.data) := by
      apply resolve_tokens_skip_all
      intro t ht
      simp only [List.mem_cons, List.not_mem_nil, or_false] at ht
      rcases ht with rfl | rfl
      all_goals dsimp only [valStep]
      · exact pySub_lit_skip (by decide) hYY
      · exact pySub_lit_skip (by decide) hYYYY
    rw [hpost]
    rfl

/-- Witness for C7: a token-free pattern passes through unchanged, and the
unknown-placeholder pattern resolves with the version value 1 substituted. -/
theorem c7_unknown_passthrough_witness :
    resolve_tokens
      (generate_tokens ⟨"am", "AM", "05", "07", "19", "33", "06", "23", "2023"⟩)
      "plain_folder" = "plain_folder" ∧
    resolve_tokens (setVersion
      (generate_tokens ⟨"am", "AM", "05", "07", "19", "33", "06", "23", "2023"⟩)
      "1") "\x7bunknown\x7d_v\x7bversion\x7d" = "\x7bunknown\x7d_v" ++ "1" := by
  constructor
  · exact c7_unknown_passthrough.1 _ _
      ⟨by decide, by decide, by decide, by decide, by decide, by decide,
       by decide, by decide, by decide, by decide⟩
  · exact c7_unknown_passthrough.2 _ "1" (by decide)

/-- C8: the full pipeline on pattern `"proj_\x7bYYYY\x7d_\x7bversion##\x7d"` with a
clock in year 2023 matches exactly the three `proj_2023_NN` entries with
versions 1, 2, 9, renders the next version as "10", and resolves the final
name `"proj_2023_10"`; and on pattern `"\x7bversion\x7d"` with an empty directory
the final name is `"1"`. -/
theorem c8_end_to_end (now : Clock) (h2023 : now.yearYYYY = "2023") :
    find_folders (generate_pattern_regex (generate_tokens now)
        "proj_\x7bYYYY\x7d_\x7bversion##\x7d")
      ["proj_2023_01", "proj_2023_02", "proj_2023_09", "unrelated_folder"] =
      [("proj_2023_01", some 1), ("proj_2023_02", some 2),
       ("proj_2023_09", some 9)] ∧
    renderVersion
      (update_version (find_folders (generate_pattern_regex (generate_tokens now)
          "proj_\x7bYYYY\x7d_\x7bversion##\x7d")
        ["proj_2023_01", "proj_2023_02", "proj_2023_09", "unrelated_folder"]))
      (find_version_padding "proj_\x7bYYYY\x7d_\x7bversion##\x7d") = "10" ∧
    run_pass now "proj_\x7bYYYY\x7d_\x7bversion##\x7d"
      ["proj_2023_01", "proj_2023_02", "proj_2023_09", "unrelated_folder"] =
      "proj_2023_10" ∧
    (∀ now2 : Clock, run_pass now2 "\x7bversion\x7d" [] = "1") := by
  refine ⟨?_, ?_, ?_, ?_⟩
  · rw [gpr_value_irrel now clock0]
    decide
  · rw [gpr_value_irrel now clock0]
    decide
  · have hv : renderVersion
        (update_version (find_folders (generate_pattern_regex
            (generate_tokens now) "proj_\x7bYYYY\x7d_\x7bversion##\x7d")
          ["proj_2023_01", "proj_2023_02", "proj_2023_09", "unrelated_folder"]))
        (find_version_padding "proj_\x7bYYYY\x7d_\x7bversion##\x7d") = "10" := by
      rw [gpr_value_irrel now clock0]
      decide
    simp only [run_pass]
    rw [hv]
    rw [show setVersion (generate_tokens now) "10" =
      [("am/pm", ⟨"\x7bpp\x7d", none, "[a-z]\x7b2\x7d", now.pLower⟩),
       ("AM/PM", ⟨"\x7bPP\x7d", none, "[A-Z]\x7b2\x7d", now.pUpper⟩),
       ("Day", ⟨"\x7bDD\x7d", none, "[0-9]\x7b2\x7d", now.day⟩),
       ("Hour (12hr)", ⟨"\x7bhh\x7d", none, "[0-9]\x7b2\x7d", now.hour12⟩),
       ("Hour (24hr)", ⟨"\x7bHH\x7d", none, "[0-9]\x7b2\x7d", now.hour24⟩),
       ("Minute", ⟨"\x7bmm\x7d", none, "[0-9]\x7b2\x7d", now.minute⟩),
       ("Month", ⟨"\x7bMM\x7d", none, "[0-9]\x7b2\x7d", now.month⟩)] ++
      (("Version", ⟨"\x7bversion\x7d", some "\x7bversion#*\x7d",
          "0*(?P<version>[1-9][0-9]*)", "10"⟩) ::
       [("Year (##)", ⟨"\x7bYY\x7d", none, "[0-9]\x7b2\x7d", now.yearYY⟩),
        ("Year (####)", ⟨"\x7bYYYY\x7d", none, "[0-9]\x7b4\x7d", now.yearYYYY⟩)])
      from rfl]
    rw [resolve_tokens_append]
    have hpre : resolve_tokens
        [("am/pm", ⟨"\x7bpp\x7d", none, "[a-z]\x7b2\x7d", now.pLower⟩),
         ("AM/PM", ⟨"\x7bPP\x7d", none, "[A-Z]\x7b2\x7d", now.pUpper⟩),
         ("Day", ⟨"\x7bDD\x7d", none, "[0-9]\x7b2\x7d", now.day⟩),
         ("Hour (12hr)", ⟨"\x7bhh\x7d", none, "[0-9]\x7b2\x7d", now.hour12⟩),
         ("Hour (24hr)", ⟨"\x7bHH\x7d", none, "[0-9]\x7b2\x7d", now.hour24⟩),
         ("Minute", ⟨"\x7bmm\x7d", none, "[0-9]\x7b2\x7d", now.minute⟩),
         ("Month", ⟨"\x7bMM\x7d", none, "[0-9]\x7b2\x7d", now.month⟩)]
        "proj_\x7bYYYY\x7d_\x7bversion##\x7d" = "proj_\x7bYYYY\x7d_\x7bversion##\x7d" := by
      apply resolve_tokens_skip_all
      intro t ht
      simp only [List.mem_cons, List.not_mem_nil, or_false] at ht
      rcases ht with rfl | rfl | rfl | rfl | rfl | rfl | rfl
      all_goals dsimp only [valStep]
      · exact pySub_lit_skip (by decide) (by decide)
      · exact pySub_lit_skip (by decide) (by decide)
      · exact pySub_lit_skip (by decide) (by decide)
      · exact pySub_lit_skip (by decide) (by decide)
      · exact pySub_lit_skip (by decide) (by decide)
      · exact pySub_lit_skip (by decide) (by decide)
      · exact pySub_lit_skip (by decide) (by decide)
    rw [hpre, resolve_tokens_cons]
    have hstep : valStep ("Version", ⟨"\x7bversion\x7d", some "\x7bversion#*\x7d",
        "0*(?P<version>[1-9][0-9]*)", "10"⟩)
        "proj_\x7bYYYY\x7d_\x7bversion##\x7d".data = "proj_\x7bYYYY\x7d_10".data := by
      show pySub "\x7bversion#*\x7d".data "10".data
        "proj_\x7bYYYY\x7d_\x7bversion##\x7d".data = _
      rw [pySub_version,
        show "proj_\x7bYYYY\x7d_\x7bversion##\x7d".data =
          "proj_\x7bYYYY\x7d_".data ++ (vOpen ++ List.replicate 2 '#' ++ ['\x7d'])
          from by decide,
        versionExtSub_append_exact "10".data _ 2 (by decide)]
      decide
    rw [hstep,
      show String.mk "proj_\x7bYYYY\x7d_10".data = "proj_\x7bYYYY\x7d_10" from rfl,
      resolve_tokens_cons]
    have hYYstep : valStep ("Year (##)", ⟨"\x7bYY\x7d", none, "[0-9]\x7b2\x7d", now.yearYY⟩)
        "proj_\x7bYYYY\x7d_10".data = "proj_\x7bYYYY\x7d_10".data := by
      show pySub "\x7bYY\x7d".data now.yearYY.data "proj_\x7bYYYY\x7d_10".data = _
      exact pySub_lit_skip (by decide) (by decide)
    rw [hYYstep,
      show String.mk "proj_\x7bYYYY\x7d_10".data = "proj_\x7bYYYY\x7d_10" from rfl,
      resolve_tokens_cons]
    have hYYYYstep : valStep
        ("Year (####)", ⟨"\x7bYYYY\x7d", none, "[0-9]\x7b4\x7d", now.yearYYYY⟩)
        "proj_\x7bYYYY\x7d_10".data = "proj_2023_10".data := by
      show pySub "\x7bYYYY\x7d".data now.yearYYYY.data "proj_\x7bYYYY\x7d_10".data = _
      rw [h2023]
      decide
    rw [hYYYYstep]
    rfl
  · intro now2
    have hv : renderVersion
        (update_version (find_folders (generate_pattern_regex
            (generate_tokens now2) "\x7bversion\x7d") []))
        (find_version_padding "\x7bversion\x7d") = "1" := by
      rw [gpr_value_irrel now2 clock0]
      decide
    simp only [run_pass]
    rw [hv]
    rw [show setVersion (generate_tokens now2) "1" =
      [("am/pm", ⟨"\x7bpp\x7d", none, "[a-z]\x7b2\x7d", now2.pLower⟩),
       ("AM/PM", ⟨"\x7bPP\x7d", none, "[A-Z]\x7b2\x7d", now2.pUpper⟩),
       ("Day", ⟨"\x7bDD\x7d", none, "[0-9]\x7b2\x7d", now2.day⟩),
       ("Hour (12hr)", ⟨"\x7bhh\x7d", none, "[0-9]\x7b2\x7d", now2.hour12⟩),
       ("Hour (24hr)", ⟨"\x7bHH\x7d", none, "[0-9]\x7b2\x7d", now2.hour24⟩),
       ("Minute", ⟨"\x7bmm\x7d", none, "[0-9]\x7b2\x7d", now2.minute⟩),
       ("Month", ⟨"\x7bMM\x7d", none, "[0-9]\x7b2\x7d", now2.month⟩)] ++
      (("Version", ⟨"\x7bversion\x7d", some "\x7bversion#*\x7d",
          "0*(?P<version>[1-9][0-9]*)", "1"⟩) ::
       [("Year (##)", ⟨"\x7bYY\x7d", none, "[0-9]\x7b2\x7d", now2.yearYY⟩),
        ("Year (####)", ⟨"\x7bYYYY\x7d", none, "[0-9]\x7b4\x7d", now2.yearYYYY⟩)])
      from rfl]
    rw [resolve_tokens_append]
    have hpre : resolve_tokens
        [("am/pm", ⟨"\x7bpp\x7d", none, "[a-z]\x7b2\x7d", now2.pLower⟩),
         ("AM/PM", ⟨"\x7bPP\x7d", none, "[A-Z]\x7b2\x7d", now2.pUpper⟩),
         ("Day", ⟨"\x7bDD\x7d", none, "[0-9]\x7b2\x7d", now2.day⟩),
         ("Hour (12hr)", ⟨"\x7bhh\x7d", none, "[0-9]\x7b2\x7d", now2.hour12⟩),
         ("Hour (24hr)", ⟨"\x7bHH\x7d", none, "[0-9]\x7b2\x7d", now2.hour24⟩),
         ("Minute", ⟨"\x7bmm\x7d", none, "[0-9]\x7b2\x7d", now2.minute⟩),
         ("Month", ⟨"\x7bMM\x7d", none, "[0-9]\x7b2\x7d", now2.month⟩)]
        "\x7bversion\x7d" = "\x7bversion\x7d" := by
      apply resolve_tokens_skip_all
      intro t ht
      simp only [List.mem_cons, List.not_mem_nil, or_false] at ht
      rcases ht with rfl | rfl | rfl | rfl | rfl | rfl | rfl
      all_goals dsimp only [valStep]
      · exact pySub_lit_skip (by decide) (by decide)
      · exact pySub_lit_skip (by decide) (by decide)
      · exact pySub_lit_skip (by decide) (by decide)
      · exact pySub_lit_skip (by decide) (by decide)
      · exact pySub_lit_skip (by decide) (by decide)
      · exact pySub_lit_skip (by decide) (by decide)
      · exact pySub_lit_skip (by decide) (by decide)
    rw [hpre, resolve_tokens_cons]
    have hstep : valStep ("Version", ⟨"\x7bversion\x7d", some "\x7bversion#*\x7d",
        "0*(?P<version>[1-9][0-9]*)", "1"⟩) "\x7bversion\x7d".data = "1".data := by
      show pySub "\x7bversion#*\x7d".data "1".data "\x7bversion\x7d".data = _
      rw [pySub_version,
        show "\x7bversion\x7d".data = vOpen ++ List.replicate 0 '#' ++ ['\x7d']
          from by decide]
      exact versionExtSub_exact "1".data 0
    rw [hstep, show String.mk "1".data = "1" from rfl]
    apply resolve_tokens_skip_all
    intro t ht
    simp only [List.mem_cons, List.not_mem_nil, or_false] at ht
    rcases ht with rfl | rfl
    all_goals dsimp only [valStep]
    · exact pySub_lit_skip (by decide) (by decide)
    · exact pySub_lit_skip (by decide) (by decide)

/-- Witness for C8, at a concrete clock fixed in 2023. -/
theorem c8_end_to_end_witness :
    run_pass ⟨"am", "AM", "05", "07", "19", "33", "06", "23", "2023"⟩
      "proj_\x7bYYYY\x7d_\x7bversion##\x7d"
      ["proj_2023_01", "proj_2023_02", "proj_2023_09", "unrelated_folder"] =
      "proj_2023_10" ∧
    run_pass ⟨"am", "AM", "05", "07", "19", "33", "06", "23", "2023"⟩
      "\x7bversion\x7d" [] = "1" := by
  have h := c8_end_to_end
    ⟨"am", "AM", "05", "07", "19", "33", "06", "23", "2023"⟩ rfl
  exact ⟨h.2.2.1, h.2.2.2 _⟩

/-! The version fragment's abstract syntax and the scanner claims. -/

/-- The body of the version capturing group, `[1-9][0-9]*`, as the parser
builds it. -/
def vGroupBody : Reg :=
  .cat (.cls [('1', '9')]) (.cat (.starCls [('0', '9')]) .eps)

/-- The version token's `pattern_regex`, `0*(?P<version>[1-9][0-9]*)`, as the
parser builds it. -/
def versionFragReg : Reg :=
  .cat (.starCls [('0', '0')]) (.cat (.group vGroupBody) .eps)

deriving instance DecidableEq for Except

/-- The version fragment string parses to `versionFragReg`. -/
theorem parse_versionFrag :
    parseReg "0*(?P<version>[1-9][0-9]*)" = .ok versionFragReg := by decide

theorem head?_mem {α : Type} {l : List α} {a : α} (h : l.head? = some a) :
    a ∈ l := by
  cases l with
  | nil => simp at h
  | cons b t =>
    simp only [List.head?, Option.some.injEq] at h
    rw [← h]
    exact List.mem_cons_self b t

theorem inCls_pair {a b c : Char} :
    inCls [(a, b)] c = true ↔ (a.toNat ≤ c.toNat ∧ c.toNat ≤ b.toNat) := by
  simp [inCls]

theorem digitsToNat_aux_ge (l : List Char) :
    ∀ a : Nat, a ≤ l.foldl (fun x c => x * 10 + (c.toNat - 48)) a := by
  induction l with
  | nil => intro a; exact Nat.le_refl a
  | cons c t ih =>
    intro a
    calc a ≤ a * 10 + (c.toNat - 48) := by omega
    _ ≤ _ := ih _

theorem digitsToNat_pos {d : Char} {u2 : List Char} (hd : 49 ≤ d.toNat) :
    1 ≤ digitsToNat (d :: u2) := by
  have h := digitsToNat_aux_ge u2 (0 * 10 + (d.toNat - 48))
  unfold digitsToNat
  rw [List.foldl_cons]
  omega

theorem pyInt_digits {d : Char} {u2 : List Char} (hd : 49 ≤ d.toNat)
    (hd2 : d.toNat ≤ 57) (hu : ∀ c ∈ u2, 48 ≤ c.toNat ∧ c.toNat ≤ 57) :
    pyInt (d :: u2) = some (digitsToNat (d :: u2)) := by
  unfold pyInt
  rw [if_pos]
  refine ⟨by simp, ?_⟩
  rw [List.all_eq_true]
  intro c hc
  rcases List.mem_cons.mp hc with rfl | hc
  · simp only [isDigitCh, Bool.and_eq_true, decide_eq_true_eq]
    omega
  · have := hu c hc
    simp only [isDigitCh, Bool.and_eq_true, decide_eq_true_eq]
    omega

theorem mall_vGroupBody_decomp {t : List Char} {w}
    (hw : w ∈ mall vGroupBody t) :
    ∃ d u2, t = (d :: u2) ++ w.1 ∧ w.2 = [] ∧ 49 ≤ d.toNat ∧ d.toNat ≤ 57 ∧
      (∀ c ∈ u2, 48 ≤ c.toNat ∧ c.toNat ≤ 57) ∧
      List.take (t.length - w.1.length) t = d :: u2 := by
  simp only [vGroupBody] at hw
  rw [show mall (.cat (.cls [('1', '9')]) (.cat (.starCls [('0', '9')]) .eps)) t =
    (mall (.cls [('1', '9')]) t).flatMap
      (fun p => (mall (.cat (.starCls [('0', '9')]) .eps) p.1).map
        (fun q => (q.1, p.2 ++ q.2))) from rfl] at hw
  rw [List.mem_flatMap] at hw
  obtain ⟨p1, hp1, hw⟩ := hw
  rw [List.mem_map] at hw
  obtain ⟨q, hq, rfl⟩ := hw
  cases t with
  | nil => exact absurd hp1 (List.not_mem_nil _)
  | cons d t' =>
    rw [show mall (.cls [('1', '9')]) (d :: t') =
      if inCls [('1', '9')] d then [(t', [])] else [] from rfl] at hp1
    by_cases hd : inCls [('1', '9')] d = true
    · rw [if_pos hd, List.mem_singleton] at hp1
      subst hp1
      rw [show mall (.cat (.starCls [('0', '9')]) .eps) ((t', []) : _ × List (List Char)).1 =
        (mall (.starCls [('0', '9')]) t').flatMap
          (fun p => (mall .eps p.1).map (fun q => (q.1, p.2 ++ q.2))) from rfl,
        List.mem_flatMap] at hq
      obtain ⟨p2, hp2, hq⟩ := hq
      rw [List.mem_map] at hq
      obtain ⟨p3, hp3, rfl⟩ := hq
      rw [show mall (.starCls [('0', '9')]) t' =
        (starRests [('0', '9')] t').map (fun r => (r, [])) from rfl,
        List.mem_map] at hp2
      obtain ⟨v, hv, rfl⟩ := hp2
      obtain ⟨u2, hu2, hall⟩ := starRests_decomp hv
      rw [show mall .eps ((v, []) : _ × List (List Char)).1 = [(v, [])] from rfl,
        List.mem_singleton] at hp3
      subst hp3
      obtain ⟨h1, h2⟩ := inCls_pair.mp hd
      refine ⟨d, u2, ?_, rfl, h1, h2, ?_, ?_⟩
      · simp [hu2]
      · intro c hc
        exact inCls_pair.mp (hall c hc)
      · have hlen : (d :: t').length - v.length = (d :: u2).length := by
          rw [hu2]
          simp only [List.length_cons, List.length_append]
          omega
        rw [hlen, show (d :: t') = (d :: u2) ++ v from by simp [hu2]]
        exact List.take_left _ _
    · rw [if_neg hd] at hp1
      exact absurd hp1 (List.not_mem_nil _)

theorem mall_versionFrag_decomp {s : List Char} {p}
    (hp : p ∈ mall versionFragReg s) :
    ∃ zs d u2, s = (zs ++ (d :: u2)) ++ p.1 ∧ p.2 = [d :: u2] ∧
      (∀ c ∈ zs, c = '0') ∧ 49 ≤ d.toNat ∧ d.toNat ≤ 57 ∧
      (∀ c ∈ u2, 48 ≤ c.toNat ∧ c.toNat ≤ 57) := by
  simp only [versionFragReg] at hp
  rw [show mall (.cat (.starCls [('0', '0')]) (.cat (.group vGroupBody) .eps)) s =
    (mall (.starCls [('0', '0')]) s).flatMap
      (fun p => (mall (.cat (.group vGroupBody) .eps) p.1).map
        (fun q => (q.1, p.2 ++ q.2))) from rfl,
    List.mem_flatMap] at hp
  obtain ⟨p1, hp1, hp⟩ := hp
  rw [List.mem_map] at hp
  obtain ⟨q, hq, rfl⟩ := hp
  rw [show mall (.starCls [('0', '0')]) s =
    (starRests [('0', '0')] s).map (fun r => (r, [])) from rfl,
    List.mem_map] at hp1
  obtain ⟨t, ht, rfl⟩ := hp1
  obtain ⟨zs, hzs, hzall⟩ := starRests_decomp ht
  rw [show mall (.cat (.group vGroupBody) .eps) ((t, []) : _ × List (List Char)).1 =
    (mall (.group vGroupBody) t).flatMap
      (fun p => (mall .eps p.1).map (fun q => (q.1, p.2 ++ q.2))) from rfl,
    List.mem_flatMap] at hq
  obtain ⟨q1, hq1, hq⟩ := hq
  rw [List.mem_map] at hq
  obtain ⟨q2, hq2, rfl⟩ := hq
  rw [show mall (.group vGroupBody) t =
    (mall vGroupBody t).map
      (fun p => (p.1, p.2 ++ [List.take (t.length - p.1.length) t])) from rfl,
    List.mem_map] at hq1
  obtain ⟨w, hw, rfl⟩ := hq1
  obtain ⟨d, u2, hts, hw2, hd1, hd2, hu, htake⟩ := mall_vGroupBody_decomp hw
  rw [show mall .eps ((w.1, w.2 ++ [List.take (t.length - w.1.length) t]) :
      _ × List (List Char)).1 = [(w.1, [])] from rfl,
    List.mem_singleton] at hq2
  subst hq2
  refine ⟨zs, d, u2, ?_, ?_, ?_, hd1, hd2, hu⟩
  · rw [hzs, hts]
    simp
  · simp [hw2, htake]
  · intro c hc
    have := inCls_pair.mp (hzall c hc)
    exact char_toNat_inj (by omega)

/-- C2: the scanner's match is anchored (the recorded full match is a front
segment of the entry, trailing characters permitted), non-matching entries
are discarded without error, the version fragment's capture excludes the
leading zeros (consumed outside the named group) and parses as a positive
integer, and a matching entry is recorded with that parsed integer when the
regex has the one capturing group. -/
theorem c2_scanner :
    (∀ (r : Reg) (s : List Char) (m : MatchRes), reMatch r s = some m →
      ∃ t, s = m.matched ++ t)
    ∧ (∀ (regex e : String) (entries : List String),
        capture_tokens regex e = none →
        find_folders regex (e :: entries) = find_folders regex entries)
    ∧ (∀ (s : List Char) (m : MatchRes), reMatch versionFragReg s = some m →
        ∃ zs c, m.matched = zs ++ c ∧ (∀ ch ∈ zs, ch = '0') ∧ m.caps = [c] ∧
          c ≠ [] ∧ c.head? ≠ some '0' ∧
          pyInt c = some (digitsToNat c) ∧ 1 ≤ digitsToNat c)
    ∧ (∀ (regex e : String) (entries : List String) (m : MatchRes),
        e ∈ entries → capture_tokens regex e = some m → m.caps.length = 1 →
        (String.mk m.matched, pyInt m.caps.headI) ∈ find_folders regex entries) := by
  refine ⟨?_, ?_, ?_, ?_⟩
  · intro r s m hm
    unfold reMatch at hm
    cases hh : (mall r s).head? with
    | none => rw [hh] at hm; exact absurd hm (by simp)
    | some p =>
      rw [hh] at hm
      rw [Option.some_inj] at hm
      obtain ⟨u, hu, htake⟩ := mall_take (head?_mem hh)
      exact ⟨p.1, by rw [← hm, htake, ← hu]⟩
  · intro regex e entries h
    unfold find_folders
    rw [List.filterMap_cons, h]
  · intro s m hm
    unfold reMatch at hm
    cases hh : (mall versionFragReg s).head? with
    | none => rw [hh] at hm; exact absurd hm (by simp)
    | some p =>
      rw [hh] at hm
      rw [Option.some_inj] at hm
      obtain ⟨zs, d, u2, hs, hcaps, hz, hd1, hd2, hu⟩ :=
        mall_versionFrag_decomp (head?_mem hh)
      have htake : List.take (s.length - p.1.length) s = zs ++ (d :: u2) := by
        have hlen : s.length - p.1.length = (zs ++ (d :: u2)).length := by
          rw [hs, List.length_append]
          omega
        rw [hlen, hs]
        exact List.take_left _ _
      refine ⟨zs, d :: u2, ?_, hz, ?_, by simp, ?_, ?_, ?_⟩
      · rw [← hm, htake]
      · rw [← hm, hcaps]
      · simp only [List.head?, ne_eq, Option.some.injEq]
        intro hd0
        rw [hd0] at hd1
        exact absurd hd1 (by decide)
      · exact pyInt_digits hd1 hd2 hu
      · exact digitsToNat_pos hd1
  · intro regex e entries m he hc hlen
    unfold find_folders
    rw [List.mem_filterMap]
    refine ⟨e, he, ?_⟩
    rw [hc]
    dsimp only
    rw [if_pos hlen]

/-- Witness for C2: a non-matching entry is dropped from the scan, and a
matched entry is recorded with its captured version. -/
theorem c2_scanner_witness :
    find_folders "0*(?P<version>[1-9][0-9]*)" ("abc" :: ["007"]) =
      find_folders "0*(?P<version>[1-9][0-9]*)" ["007"] ∧
    (String.mk "007".data, pyInt (["7".data]).headI) ∈
      find_folders "0*(?P<version>[1-9][0-9]*)" ["007"] := by
  constructor
  · exact c2_scanner.2.1 _ _ _ (by decide)
  · exact c2_scanner.2.2.2 _ "007" _ ⟨"007".data, ["7".data]⟩
      (by decide) (by decide) (by decide)

/-- Does every capturing group of the regex have the version fragment's
body?  True of every regex this script compiles from its token table. -/
def versionShaped : Reg → Bool
  | .eps => true
  | .cls _ => true
  | .starCls _ => true
  | .cat a b => versionShaped a && versionShaped b
  | .group a => decide (a = vGroupBody)

theorem mall_versionShaped_caps :
    ∀ r : Reg, versionShaped r = true → ∀ (s : List Char) (p), p ∈ mall r s →
      ∀ c ∈ p.2, ∃ d ds, c = d :: ds ∧ 49 ≤ d.toNat ∧ d.toNat ≤ 57 := by
  intro r
  induction r with
  | eps =>
    intro _ s p hp c hc
    rw [show mall .eps s = [(s, [])] from rfl, List.mem_singleton] at hp
    subst hp
    exact absurd hc (List.not_mem_nil _)
  | cls rs =>
    intro _ s p hp c hc
    cases s with
    | nil => exact absurd hp (List.not_mem_nil _)
    | cons a s' =>
      rw [show mall (.cls rs) (a :: s') =
        if inCls rs a then [(s', [])] else [] from rfl] at hp
      by_cases ha : inCls rs a = true
      · rw [if_pos ha, List.mem_singleton] at hp
        subst hp
        exact absurd hc (List.not_mem_nil _)
      · rw [if_neg ha] at hp
        exact absurd hp (List.not_mem_nil _)
  | starCls rs =>
    intro _ s p hp c hc
    rw [show mall (.starCls rs) s =
      (starRests rs s).map (fun r => (r, [])) from rfl, List.mem_map] at hp
    obtain ⟨t, _, rfl⟩ := hp
    exact absurd hc (List.not_mem_nil _)
  | cat a b iha ihb =>
    intro hs s p hp c hc
    simp only [versionShaped, Bool.and_eq_true] at hs
    rw [show mall (.cat a b) s =
      (mall a s).flatMap (fun p => (mall b p.1).map
        (fun q => (q.1, p.2 ++ q.2))) from rfl, List.mem_flatMap] at hp
    obtain ⟨p1, hp1, hp⟩ := hp
    rw [List.mem_map] at hp
    obtain ⟨q, hq, rfl⟩ := hp
    rcases List.mem_append.mp hc with hc | hc
    · exact iha hs.1 s p1 hp1 c hc
    · exact ihb hs.2 p1.1 q hq c hc
  | group a iha =>
    intro hs s p hp c hc
    simp only [versionShaped, decide_eq_true_eq] at hs
    subst hs
    rw [show mall (.group vGroupBody) s =
      (mall vGroupBody s).map
        (fun p => (p.1, p.2 ++ [List.take (s.length - p.1.length) s]))
      from rfl, List.mem_map] at hp
    obtain ⟨w, hw, rfl⟩ := hp
    obtain ⟨d, u2, hts, hw2, hd1, hd2, _, htake⟩ := mall_vGroupBody_decomp hw
    rw [hw2, List.nil_append] at hc
    rw [List.mem_singleton] at hc
    subst hc
    exact ⟨d, u2, htake, hd1, hd2⟩

/-- C10: every version integer the scanner extracts is at least 1, because
the version fragment's group matches `[1-9][0-9]*` with the zero padding
consumed outside the group; and the all-zero entry "proj_00" does not match
the compiled pattern "proj_\x7bversion##\x7d" at all. -/
theorem c10_version_positive :
    (∀ (regex : String) (r : Reg), parseReg regex = .ok r →
      versionShaped r = true →
      ∀ (entries : List String) (nm : String) (v : Nat),
        (nm, some v) ∈ find_folders regex entries → 1 ≤ v)
    ∧ (∀ now : Clock, capture_tokens
        (generate_pattern_regex (generate_tokens now) "proj_\x7bversion##\x7d")
        "proj_00" = none) := by
  constructor
  · intro regex r hok hshape entries nm v hmem
    unfold find_folders at hmem
    rw [List.mem_filterMap] at hmem
    obtain ⟨e, _, heq⟩ := hmem
    cases hc : capture_tokens regex e with
    | none => rw [hc] at heq; exact absurd heq (by simp)
    | some m =>
      rw [hc] at heq
      rw [Option.some_inj, Prod.mk.injEq] at heq
      obtain ⟨-, heq⟩ := heq
      by_cases hlen : m.caps.length = 1
      · rw [if_pos hlen] at heq
        obtain ⟨c0, hc0⟩ := List.length_eq_one.mp hlen
        unfold capture_tokens at hc
        rw [hok] at hc
        dsimp only at hc
        unfold reMatch at hc
        cases hh : (mall r e.data).head? with
        | none => rw [hh] at hc; exact absurd hc (by simp)
        | some p =>
          rw [hh] at hc
          rw [Option.some_inj] at hc
          have hcap := mall_versionShaped_caps r hshape e.data p (head?_mem hh)
          have hc0mem : c0 ∈ p.2 := by
            have : m.caps = [c0] := hc0
            rw [← hc] at this
            simp only at this
            rw [this]
            exact List.mem_cons_self _ _
          obtain ⟨d, ds, hcd, hd1, _⟩ := hcap c0 hc0mem
          rw [hc0] at heq
          simp only [List.headI] at heq
          rw [hcd] at heq
          rw [pyInt] at heq
          by_cases hcond : (d :: ds ≠ [] ∧ (d :: ds).all isDigitCh = true)
          · rw [if_pos hcond, Option.some_inj] at heq
            rw [← heq]
            exact digitsToNat_pos hd1
          · rw [if_neg hcond] at heq
            exact absurd heq (by simp)
      · rw [if_neg hlen] at heq
        exact absurd heq (by simp)
  · intro now
    rw [gpr_value_irrel now clock0]
    decide

/-- Witness for C10: a concrete single-group version regex scan yields only
positive versions, and the all-zero entry fails to match. -/
theorem c10_version_positive_witness :
    (1 : Nat) ≤ 7 ∧ capture_tokens
      (generate_pattern_regex (generate_tokens clock0) "proj_\x7bversion##\x7d")
      "proj_00" = none := by
  constructor
  · exact c10_version_positive.1 "0*(?P<version>[1-9][0-9]*)" versionFragReg
      (by decide) (by decide) ["007"] "007" 7 (by decide)
  · exact c10_version_positive.2 clock0

/-! The padding-detection regex and its characterization. -/

/-- A chain of single-character atoms in front of a regex. -/
def litChain : List Char → Reg → Reg
  | [], r => r
  | c :: cs, r => .cat (.cls [(c, c)]) (litChain cs r)

/-- The literal `"\x7bversion"` chain of the padding regex, as the parser
builds it (sequence atoms folded with a trailing `eps`). -/
def padChain : Reg := litChain vOpen .eps

/-- The captured hash run and closing brace of the padding regex. -/
def hashTail : Reg :=
  .cat (.group (.cat (.starCls [('#', '#')]) .eps))
    (.cat (.cls [('\x7d', '\x7d')]) .eps)

/-- The parse of `padRegexStr`. -/
def padAST : Reg := .cat (.cat (.starCls dotRanges) padChain) hashTail

theorem parse_padReg : parseReg padRegexStr = .ok padAST := by decide

theorem mall_cat_eq (a b : Reg) (s : List Char) :
    mall (.cat a b) s = (mall a s).flatMap
      (fun p => (mall b p.1).map (fun q => (q.1, p.2 ++ q.2))) := rfl

theorem flatMap_congr_mem {α β : Type} {l : List α} {f g : α → List β}
    (h : ∀ a ∈ l, f a = g a) : l.flatMap f = l.flatMap g := by
  induction l with
  | nil => rfl
  | cons a t ih =>
    rw [List.flatMap_cons, List.flatMap_cons, h a (List.mem_cons_self a t),
      ih fun b hb => h b (List.mem_cons_of_mem a hb)]

theorem mall_cat_assoc (a b c : Reg) (s : List Char) :
    mall (.cat (.cat a b) c) s = mall (.cat a (.cat b c)) s := by
  simp only [mall_cat_eq, List.flatMap_assoc, List.flatMap_map, List.map_flatMap,
    List.map_map]
  apply flatMap_congr_mem
  intro p _
  apply flatMap_congr_mem
  intro q _
  simp [Function.comp, List.append_assoc]

theorem mall_cat_eps (R : Reg) (s : List Char) :
    mall (.cat .eps R) s = mall R s := by
  rw [mall_cat_eq, show mall .eps s = [(s, [])] from rfl,
    List.flatMap_singleton]
  simp

theorem mall_cat_cls (c : Char) (R : Reg) (u : List Char) :
    mall (.cat (.cls [(c, c)]) R) u =
      match u with
      | [] => []
      | d :: u' => if d = c then mall R u' else [] := by
  cases u with
  | nil => rfl
  | cons d u' =>
    rw [mall_cat_eq,
      show mall (.cls [(c, c)]) (d :: u') =
        if inCls [(c, c)] d then [(u', [])] else [] from rfl]
    by_cases hd : d = c
    · rw [if_pos (inCls_single.mpr hd), List.flatMap_singleton]
      dsimp only
      rw [if_pos hd]
      simp
    · rw [if_neg fun hh => hd (inCls_single.mp hh)]
      dsimp only
      rw [if_neg hd]
      rfl

theorem mall_starS (rs : List (Char × Char)) (R : Reg) (s : List Char) :
    mall (.cat (.starCls rs) R) s =
      (starRests rs s).flatMap (fun t => mall R t) := by
  rw [mall_cat_eq,
    show mall (.starCls rs) s =
      (starRests rs s).map (fun r => (r, ([] : List (List Char)))) from rfl,
    List.flatMap_map]
  apply flatMap_congr_mem
  intro t _
  simp

theorem mall_litChain_pos : ∀ (cs : List Char) (R : Reg) (u : List Char),
    mall (litChain cs R) (cs ++ u) = mall R u := by
  intro cs
  induction cs with
  | nil => intro R u; rfl
  | cons c cs ih =>
    intro R u
    rw [show litChain (c :: cs) R = .cat (.cls [(c, c)]) (litChain cs R)
      from rfl, mall_cat_cls]
    show (if c = c then mall (litChain cs R) (cs ++ u) else []) = mall R u
    rw [if_pos rfl, ih]

theorem mall_litChain_neg : ∀ (cs : List Char) (R : Reg) (t : List Char),
    cs.isPrefixOf t = false → mall (litChain cs R) t = [] := by
  intro cs
  induction cs with
  | nil => intro R t h; simp [List.isPrefixOf] at h
  | cons c cs ih =>
    intro R t h
    rw [show litChain (c :: cs) R = .cat (.cls [(c, c)]) (litChain cs R)
      from rfl, mall_cat_cls]
    cases t with
    | nil => rfl
    | cons d t' =>
      simp only [List.isPrefixOf, Bool.and_eq_false_iff, beq_eq_false_iff_ne,
        ne_eq] at h
      dsimp only
      by_cases hd : d = c
      · subst hd
        rcases h with h | h
        · exact absurd rfl h
        · rw [if_pos rfl]
          exact ih _ _ h
      · rw [if_neg hd]

theorem mall_bridge : ∀ (cs : List Char) (R : Reg) (t : List Char),
    mall (.cat (litChain cs .eps) R) t = mall (litChain cs R) t := by
  intro cs
  induction cs with
  | nil => intro R t; exact mall_cat_eps R t
  | cons c cs ih =>
    intro R t
    rw [show litChain (c :: cs) Reg.eps = .cat (.cls [(c, c)]) (litChain cs .eps)
      from rfl, mall_cat_assoc, mall_cat_cls,
      show litChain (c :: cs) R = .cat (.cls [(c, c)]) (litChain cs R)
      from rfl, mall_cat_cls]
    cases t with
    | nil => rfl
    | cons d t' =>
      dsimp only
      by_cases hd : d = c
      · rw [if_pos hd, if_pos hd, ih]
      · rw [if_neg hd, if_neg hd]

theorem mall_hashTail_rep (u : List Char) :
    mall hashTail u = (starRests [('#', '#')] u).flatMap
      (fun r => if r.head? = some '\x7d'
        then [(r.tail, [List.take (u.length - r.length) u])]
        else []) := by
  rw [show hashTail = .cat (.group (.cat (.starCls [('#', '#')]) .eps))
      (.cat (.cls [('\x7d', '\x7d')]) .eps) from rfl,
    mall_cat_eq,
    show mall (.group (.cat (.starCls [('#', '#')]) .eps)) u =
      (mall (.cat (.starCls [('#', '#')]) .eps) u).map
        (fun p => (p.1, p.2 ++ [List.take (u.length - p.1.length) u])) from rfl,
    mall_starS]
  rw [show (fun t : List Char => mall .eps t) =
    (fun t : List Char => [(t, ([] : List (List Char)))]) from rfl]
  rw [List.map_flatMap, List.flatMap_assoc]
  apply flatMap_congr_mem
  intro r _
  rw [List.map_cons, List.map_nil, List.flatMap_singleton]
  dsimp only
  rw [mall_cat_cls]
  cases r with
  | nil =>
    rw [if_neg (by simp)]
    rfl
  | cons d r' =>
    dsimp only
    by_cases hd : d = '\x7d'
    · rw [if_pos hd, if_pos (by simp [hd]),
        show mall Reg.eps r' = [(r', [])] from rfl]
      simp
    · rw [if_neg hd, if_neg (by simp [hd])]
      rfl

theorem countLeading_cons_self (c : Char) (u : List Char) :
    countLeading c (c :: u) = countLeading c u + 1 := by
  simp [countLeading]

theorem countLeading_cons_ne {c d : Char} (h : d ≠ c) (u : List Char) :
    countLeading c (d :: u) = 0 := by
  simp [countLeading, h]

theorem mall_hashTail (u : List Char) :
    mall hashTail u =
      if (List.drop (countLeading '#' u) u).head? = some '\x7d'
      then [(List.drop (countLeading '#' u + 1) u,
             [List.replicate (countLeading '#' u) '#'])]
      else [] := by
  induction u with
  | nil => decide
  | cons c u' ih =>
    by_cases hc : c = '#'
    · subst hc
      rw [mall_hashTail_rep,
        show starRests [('#', '#')] ('#' :: u') =
          starRests [('#', '#')] u' ++ ['#' :: u'] from by
            rw [starRests, if_pos (inCls_single.mpr rfl)],
        List.flatMap_append, List.flatMap_singleton]
      rw [if_neg (by simp)]
      rw [List.append_nil]
      have hcong : ∀ r ∈ starRests [('#', '#')] u',
          (if r.head? = some '\x7d'
            then [(r.tail, [List.take (('#' :: u').length - r.length)
                ('#' :: u')])]
            else []) =
          (if r.head? = some '\x7d'
            then [(r.tail, [List.take (u'.length - r.length) u'])]
            else []).map
            (fun p : List Char × List (List Char) =>
              (p.1, p.2.map (fun l => '#' :: l))) := by
        intro r hr
        obtain ⟨w, hw, _⟩ := starRests_decomp hr
        by_cases hh : r.head? = some '\x7d'
        · rw [if_pos hh, if_pos hh, List.map_cons, List.map_nil]
          have hlen : ('#' :: u').length - r.length =
              (u'.length - r.length) + 1 := by
            rw [hw]
            simp only [List.length_cons, List.length_append]
            omega
          rw [hlen, List.take_succ_cons]
          rfl
        · rw [if_neg hh, if_neg hh]
          rfl
      rw [flatMap_congr_mem hcong, ← List.map_flatMap, ← mall_hashTail_rep, ih,
        countLeading_cons_self]
      by_cases hcond : (List.drop (countLeading '#' u') u').head? = some '\x7d'
      · rw [if_pos hcond, if_pos (by rw [List.drop_succ_cons]; exact hcond)]
        simp [List.replicate_succ, List.drop_succ_cons]
      · rw [if_neg hcond, if_neg (by rw [List.drop_succ_cons]; exact hcond)]
        rfl
    · rw [mall_hashTail_rep,
        show starRests [('#', '#')] (c :: u') = [c :: u'] from by
          rw [starRests, if_neg fun hh => hc (inCls_single.mp hh)],
        List.flatMap_singleton, countLeading_cons_ne hc, List.drop_zero]
      by_cases hcz : (c :: u').head? = some '\x7d'
      · rw [if_pos hcz, if_pos hcz]
        simp
      · rw [if_neg hcz, if_neg hcz]

/-- What one attempt of the padding regex's tail (after the backtracking
`.*` fixed a start position) yields: the single match with the hash run
captured, or nothing. -/
def padHit (t : List Char) : List (List Char × List (List Char)) :=
  match vTokAt t with
  | some k => [(List.drop (9 + k) t, [List.replicate k '#'])]
  | none => []

theorem mall_padAST_rep (s : List Char) :
    mall padAST s = (starRests dotRanges s).flatMap
      (fun t => mall (.cat padChain hashTail) t) := by
  rw [show padAST = .cat (.cat (.starCls dotRanges) padChain) hashTail
    from rfl, mall_cat_assoc, mall_starS]

theorem mall_inner (t : List Char) :
    mall (.cat padChain hashTail) t = padHit t := by
  by_cases hp : vOpen.isPrefixOf t = true
  · obtain ⟨u, rfl⟩ := isPrefixOf_ex _ _ hp
    rw [show padChain = litChain vOpen .eps from rfl, mall_bridge,
      mall_litChain_pos, mall_hashTail]
    cases hv : vTokAt (vOpen ++ u) with
    | some k =>
      obtain ⟨v, hveq⟩ := vTokAt_eq_some_iff.mp hv
      rw [List.append_assoc] at hveq
      have hu : u = List.replicate k '#' ++ '\x7d' :: v :=
        List.append_cancel_left hveq
      subst hu
      have hcl : countLeading '#' (List.replicate k '#' ++ '\x7d' :: v) = k :=
        countLeading_replicate_ne (by decide) v k
      have hdk : List.drop k (List.replicate k '#' ++ '\x7d' :: v) =
          '\x7d' :: v := List.drop_left' (by simp)
      have hdk1 : List.drop (k + 1) (List.replicate k '#' ++ '\x7d' :: v) = v := by
        rw [show List.replicate k '#' ++ '\x7d' :: v =
          (List.replicate k '#' ++ ['\x7d']) ++ v from by simp]
        exact List.drop_left' (by simp)
      rw [hcl, hdk,
        if_pos (show ('\x7d' :: v).head? = some '\x7d' from rfl), hdk1]
      rw [show padHit (vOpen ++ (List.replicate k '#' ++ '\x7d' :: v)) =
        [(List.drop (9 + k) (vOpen ++ (List.replicate k '#' ++ '\x7d' :: v)),
          [List.replicate k '#'])] from by
          unfold padHit
          rw [hv]]
      have hdrop9 : List.drop (9 + k)
          (vOpen ++ (List.replicate k '#' ++ '\x7d' :: v)) = v := by
        rw [show vOpen ++ (List.replicate k '#' ++ '\x7d' :: v) =
          (vOpen ++ (List.replicate k '#' ++ ['\x7d'])) ++ v from by simp]
        refine List.drop_left' ?_
        rw [List.length_append, List.length_append, List.length_replicate,
          show vOpen.length = 8 from rfl, List.length_singleton]
        omega
      rw [hdrop9]
    | none =>
      have h8 : List.drop 8 (vOpen ++ u) = u :=
        List.drop_left' (show vOpen.length = 8 from rfl)
      by_cases hcond : (List.drop (countLeading '#' u) u).head? = some '\x7d'
      · exfalso
        have hsome : vTokAt (vOpen ++ u) = some (countLeading '#' u) := by
          unfold vTokAt
          rw [hp, if_pos rfl, h8, if_pos hcond]
        rw [hsome] at hv
        exact absurd hv (by simp)
      · rw [if_neg hcond]
        unfold padHit
        rw [hv]
  · have hpf : vOpen.isPrefixOf t = false := by
      cases h : vOpen.isPrefixOf t
      · rfl
      · exact absurd h hp
    rw [show padChain = litChain vOpen .eps from rfl, mall_bridge,
      mall_litChain_neg vOpen hashTail t hpf]
    unfold padHit vTokAt
    rw [hpf]
    rfl

/-- The padding the backtracking match finds: the hash count of the first
viable version-token occurrence among the `.*` candidates, which are the
positions from the rightmost one reachable without crossing a newline back
to the start. -/
def bestPad (s : List Char) : Option Nat :=
  (starRests dotRanges s).findSome? vTokAt

theorem pad_head (l : List (List Char)) :
    ((l.findSome? (fun t => (padHit t).head?)).map (fun p => p.2)) =
      (l.findSome? vTokAt).map (fun k => [List.replicate k '#']) := by
  induction l with
  | nil => rfl
  | cons t l ih =>
    cases hv : vTokAt t with
    | some k =>
      rw [List.findSome?_cons_of_isSome _ (by simp [padHit, hv]),
        List.findSome?_cons_of_isSome _ (by simp [hv])]
      simp [padHit, hv]
    | none =>
      rw [List.findSome?_cons_of_isNone _ (by simp [padHit, hv]),
        List.findSome?_cons_of_isNone _ (by simp [hv]), ih]

theorem find_version_padding_eq_bestPad (p : String) :
    find_version_padding p = (bestPad p.data).getD 0 := by
  have hcap : capture_tokens padRegexStr p =
      match (mall padAST p.data).head? with
      | none => none
      | some pr => some ⟨List.take (p.data.length - pr.1.length) p.data, pr.2⟩ := by
    unfold capture_tokens reMatch
    rw [parse_padReg]
  have hflat : mall padAST p.data =
      (starRests dotRanges p.data).flatMap padHit := by
    rw [mall_padAST_rep]
    exact flatMap_congr_mem fun t _ => mall_inner t
  have hph := pad_head (starRests dotRanges p.data)
  unfold find_version_padding
  rw [hcap, hflat, List.head?_flatMap]
  cases hb : (starRests dotRanges p.data).findSome? vTokAt with
  | some k =>
    rw [hb] at hph
    rw [Option.map_some'] at hph
    rw [Option.map_eq_some'] at hph
    obtain ⟨pr, hpr, hpr2⟩ := hph
    rw [hpr]
    simp only [bestPad, hb, Option.getD_some]
    rw [hpr2]
    simp
  | none =>
    rw [hb] at hph
    rw [Option.map_none'] at hph
    rw [Option.map_eq_none'] at hph
    rw [hph]
    simp [bestPad, hb]

theorem char_toNat_le (c : Char) : c.toNat ≤ 1114111 := by
  have h := c.valid
  show c.val.toNat ≤ 1114111
  rcases h with h | ⟨h1, h2⟩
  · omega
  · omega

theorem inCls_dot (c : Char) : inCls dotRanges c = true ↔ c ≠ '\n' := by
  constructor
  · intro h heq
    subst heq
    exact absurd h (by decide)
  · intro hne
    have hten : c.toNat ≠ 10 := fun h => hne (char_toNat_inj (by rw [h]; rfl))
    have hle : c.toNat ≤ 1114111 := char_toNat_le c
    simp only [inCls, dotRanges, List.any_cons, List.any_nil, Bool.or_false,
      Bool.and_eq_true, decide_eq_true_eq, Bool.or_eq_true]
    rw [show (Char.ofNat 0).toNat = 0 from rfl,
      show (Char.ofNat 9).toNat = 9 from rfl,
      show (Char.ofNat 11).toNat = 11 from rfl,
      show (Char.ofNat 1114111).toNat = 1114111 from rfl]
    omega

/-- The spec-side reading of the amended C4: walk the raw pattern text left
to right, remembering the hash count of a version token starting at the
current position; stop after a newline, since the scanning regex's `.*`
cannot cross one; the last remembered count wins. -/
def lastPadScan : List Char → Option Nat → Option Nat
  | [], acc => acc
  | c :: rest, acc =>
    if c = '\n' then
      match vTokAt (c :: rest) with
      | some k => some k
      | none => acc
    else
      lastPadScan rest
        (match vTokAt (c :: rest) with
         | some k => some k
         | none => acc)

/-- The amended padding contract, in the claim's own shape: the hash count
of the last version-token occurrence seen by the newline-bounded scan,
defaulting to 0. -/
def detect_padding_spec (p : String) : Nat :=
  (lastPadScan p.data none).getD 0

theorem lastPadScan_eq_bestPad : ∀ (s : List Char) (acc : Option Nat),
    lastPadScan s acc =
      match bestPad s with
      | some k => some k
      | none => acc := by
  intro s
  induction s with
  | nil => intro acc; rfl
  | cons c rest ih =>
    intro acc
    by_cases hnl : c = '\n'
    · subst hnl
      have hb : bestPad ('\n' :: rest) = vTokAt ('\n' :: rest) := by
        unfold bestPad
        rw [show starRests dotRanges ('\n' :: rest) = ['\n' :: rest] from by
          rw [starRests, if_neg (by decide)]]
        cases hv : vTokAt ('\n' :: rest) with
        | some k => rw [List.findSome?_cons_of_isSome _ (by simp [hv]), hv]
        | none =>
          rw [List.findSome?_cons_of_isNone _ (by simp [hv])]
          rfl
      rw [lastPadScan, if_pos rfl, hb]
    · rw [lastPadScan, if_neg hnl, ih]
      have hsplit : starRests dotRanges (c :: rest) =
          starRests dotRanges rest ++ [c :: rest] := by
        rw [starRests, if_pos ((inCls_dot c).mpr hnl)]
      have hone : List.findSome? vTokAt [c :: rest] = vTokAt (c :: rest) := by
        cases hv : vTokAt (c :: rest) with
        | some k => rw [List.findSome?_cons_of_isSome _ (by simp [hv]), hv]
        | none =>
          rw [List.findSome?_cons_of_isNone _ (by simp [hv])]
          rfl
      have hb : bestPad (c :: rest) =
          (bestPad rest).or (vTokAt (c :: rest)) := by
        unfold bestPad
        rw [hsplit, List.findSome?_append, hone]
      rw [hb]
      cases hbr : bestPad rest with
      | some k => rfl
      | none =>
        rw [Option.none_or]

/-- C4 counterexample: the raw pattern "a\n\x7bversion##\x7d" contains the
version token with two hash modifiers, yet padding detection returns 0, not
2 — the scanning regex's `.*` cannot cross the newline. -/
theorem c4_counterexample :
    find_version_padding "a\n\x7bversion##\x7d" = 0 ∧
    occursInB "\x7bversion##\x7d".data "a\n\x7bversion##\x7d".data = true :=
  ⟨by decide, by decide⟩

/-- C4 as amended: padding detection scans the raw pattern text and returns
the hash count of the last version-token occurrence whose preceding text
contains no newline (the backtracking `.*` picks the rightmost viable
position and cannot cross a newline), 0 when there is no such occurrence; in
particular "\x7bversion##\x7d" gives 2, a hash-free or absent token gives 0. -/
theorem c4_padding_scan (p : String) :
    find_version_padding p = detect_padding_spec p ∧
    find_version_padding "\x7bversion##\x7d" = 2 ∧
    find_version_padding "\x7bversion\x7d" = 0 ∧
    find_version_padding "no_token_here" = 0 := by
  refine ⟨?_, by decide, by decide, by decide⟩
  unfold detect_padding_spec
  rw [find_version_padding_eq_bestPad, lastPadScan_eq_bestPad]
  cases bestPad p.data <;> rfl

end ContinueFolder
